import Mathlib

/-!
Verification development for the RBLX UI-designer editor (`src/uidesigner/app.js`,
second snapshot, mirrored by `src/unnamed/part_000`): scene-graph store, geometry
clamping, hierarchy editing (reparent / reorder / z-normalization), persistence
loading and the Lua code generator.

Numbers: the JavaScript source computes on IEEE doubles, but every value the
editor manipulates is produced from integer literals, halves (`0.5` anchors) and
exact divisions, so all arithmetic performed is exact.  We model JS numbers by
exact rational arithmetic with an explicit numerator/denominator pair `Q`
(kept unnormalized; all operations are total and kernel-computable), and relate
it to `ℚ` through `Q.toRat` for the mathematical proofs.
-/

/-- Exact rational: numerator and positive denominator, not necessarily reduced.
Models a JavaScript number in the exact-arithmetic regime of the editor. -/
structure Q where
  n : Int
  d : Nat
  dpos : 0 < d

instance : DecidableEq Q :=
  fun a b =>
    decidable_of_iff (a.n = b.n ∧ a.d = b.d)
      (by cases a; cases b; simp)

/-- Embed an integer. -/
def Q.ofInt (k : Int) : Q := ⟨k, 1, Nat.one_pos⟩

instance (k : Nat) : OfNat Q k := ⟨Q.ofInt k⟩

instance : Neg Q := ⟨fun a => ⟨-a.n, a.d, a.dpos⟩⟩

instance : Add Q :=
  ⟨fun a b => ⟨a.n * b.d + b.n * a.d, a.d * b.d, Nat.mul_pos a.dpos b.dpos⟩⟩

instance : Sub Q :=
  ⟨fun a b => ⟨a.n * b.d - b.n * a.d, a.d * b.d, Nat.mul_pos a.dpos b.dpos⟩⟩

instance : Mul Q :=
  ⟨fun a b => ⟨a.n * b.n, a.d * b.d, Nat.mul_pos a.dpos b.dpos⟩⟩

/-- Division.  Division by a zero value yields `0` (the JS source never divides
by zero: the zoom divisor is always nonzero). -/
instance : Div Q :=
  ⟨fun a b =>
    if h : b.n = 0 then ⟨0, 1, Nat.one_pos⟩
    else ⟨a.n * b.d * b.n.sign, a.d * b.n.natAbs,
      Nat.mul_pos a.dpos (Int.natAbs_pos.mpr h)⟩⟩

instance : LE Q := ⟨fun a b => a.n * b.d ≤ b.n * a.d⟩

instance : LT Q := ⟨fun a b => a.n * b.d < b.n * a.d⟩

instance (a b : Q) : Decidable (a ≤ b) :=
  decidable_of_iff (a.n * b.d ≤ b.n * a.d) Iff.rfl

instance (a b : Q) : Decidable (a < b) :=
  decidable_of_iff (a.n * b.d < b.n * a.d) Iff.rfl

/-- Boolean `≤` test (used by sorting). -/
def Q.ble (a b : Q) : Bool := a.n * b.d ≤ b.n * a.d

/-- `Math.min`. -/
def Q.min (a b : Q) : Q := if Q.ble a b then a else b

/-- `Math.max`. -/
def Q.max (a b : Q) : Q := if Q.ble a b then b else a

/-- `Math.round`: round half up, i.e. `⌊q + 1/2⌋`, computed as a floor
division with positive divisor. -/
def Q.round (a : Q) : Int := Int.ediv (2 * a.n + a.d) (2 * a.d)

/-- Absolute value. -/
def Q.abs (a : Q) : Q := ⟨|a.n|, a.d, a.dpos⟩

/-- The value `1/2`, the anchor fraction `0.5` of the source. -/
def Q.half : Q := ⟨1, 2, by decide⟩

/-- Value of a `Q` as a rational number, for the mathematical development. -/
def Q.toRat (a : Q) : ℚ := (a.n : ℚ) / (a.d : ℚ)


namespace UIApp

/-- Node identifier.  The source uses opaque random strings; only equality is
ever used, so we model ids as naturals.  The `ROOT` sentinel is `Option.none`
in `parentId` positions. -/
abbrev Id := Nat

/-- The closed set of element kinds (`app.js` toolbox). -/
inductive NType
  | frame | scrollingFrame | textLabel | textButton | textBox
  | imageLabel | imageButton | viewportFrame
deriving DecidableEq, Repr

/-- The Roblox class-name string of a kind (the `type` field of a node). -/
def typeName : NType → String
  | .frame => "Frame"
  | .scrollingFrame => "ScrollingFrame"
  | .textLabel => "TextLabel"
  | .textButton => "TextButton"
  | .textBox => "TextBox"
  | .imageLabel => "ImageLabel"
  | .imageButton => "ImageButton"
  | .viewportFrame => "ViewportFrame"

/-- RGB color triple. -/
structure RGB where
  r : Int
  g : Int
  b : Int
deriving DecidableEq, Repr

/-- Property bag of a UI object (`obj.props`); the exporter reads each key with
an `?? default` fallback, hence the `Option`s. -/
structure UIProps where
  cornerRadius : Option Q := none
  thickness : Option Q := none
  color : Option RGB := none
  transparency : Option Q := none
  minTextSize : Option Q := none
  maxTextSize : Option Q := none
  minW : Option Q := none
  minH : Option Q := none
  maxW : Option Q := none
  maxH : Option Q := none
  aspectRatio : Option Q := none
  scale : Option Q := none
  left : Option Q := none
  right : Option Q := none
  top : Option Q := none
  bottom : Option Q := none
deriving DecidableEq

/-- A UI-object attachment (`{ id, type, props }`). -/
structure UIObj where
  id : Id
  type : String
  props : UIProps
deriving DecidableEq

/-- One placed element (the node records of `state.nodes`). -/
structure Node where
  id : Id
  type : NType
  name : String
  parentId : Option Id
  x : Q
  y : Q
  w : Q
  h : Q
  anchorX : Q
  anchorY : Q
  zIndex : Q
  bgColor : RGB
  bgAlpha : Q
  border : Bool
  text : String
  textColor : RGB
  textScaled : Bool
  font : String
  image : String
  canvasW : Q
  canvasH : Q
  scrollBarThickness : Q
  uiObjects : List UIObj
deriving DecidableEq

/-- Project metadata. -/
structure Project where
  guiName : String
  resetOnSpawn : Bool
  parent : String
  outputMode : String
deriving DecidableEq

/-- The whole store (`state`). -/
structure State where
  project : Project
  nodes : List Node
  selectedId : Option Id
  zoom : Q
  showSafeArea : Bool
deriving DecidableEq

/-- Canvas width (`CANVAS_W`). -/
def CANVAS_W : Q := 980

/-- Canvas height (`CANVAS_H`). -/
def CANVAS_H : Q := 620

/-- `clamp(v, a, b) = Math.max(a, Math.min(b, v))`. -/
def clampQ (v a b : Q) : Q := Q.max a (Q.min b v)

/-- `getNode(id)`: first node with the given id. -/
def getNode (nodes : List Node) (id : Id) : Option Node :=
  nodes.find? (fun n => n.id == id)

/-- Direct children of a parent (`ROOT` is `none`), in store-array order. -/
def childrenOf (nodes : List Node) (pid : Option Id) : List Node :=
  nodes.filter (fun n => n.parentId == pid)

/-- `isContainer`: Frame or ScrollingFrame. -/
def isContainer (n : Node) : Bool :=
  n.type == .frame || n.type == .scrollingFrame

/-- `isTextType`. -/
def isTextType (n : Node) : Bool :=
  n.type == .textLabel || n.type == .textButton || n.type == .textBox

/-- `isImageType`. -/
def isImageType (n : Node) : Bool :=
  n.type == .imageLabel || n.type == .imageButton

/-- `parentSize(pid, map)`: the parent box, or the fixed canvas for `ROOT`
and for dangling parent ids. -/
def parentSize (nodes : List Node) (pid : Option Id) : Q × Q :=
  match pid with
  | none => (CANVAS_W, CANVAS_H)
  | some p =>
    match getNode nodes p with
    | some n => (n.w, n.h)
    | none => (CANVAS_W, CANVAS_H)

/-- `clampInParent(n, map)` with the parent box already resolved:
clamp `w,h` into `[20, parent]`, then clamp the rounded anchor position into
the anchor-aware bounds. -/
def clampInParent (n : Node) (ps : Q × Q) : Node :=
  let w := clampQ (Q.ofInt (Q.round n.w)) 20 ps.1
  let h := clampQ (Q.ofInt (Q.round n.h)) 20 ps.2
  let minX := n.anchorX * w
  let maxX := ps.1 - ((1 : Q) - n.anchorX) * w
  let minY := n.anchorY * h
  let maxY := ps.2 - ((1 : Q) - n.anchorY) * h
  { n with
    w := w, h := h,
    x := clampQ (Q.ofInt (Q.round n.x)) minX maxX,
    y := clampQ (Q.ofInt (Q.round n.y)) minY maxY }

/-- `absTopLeft(id, map)`, fuel-bounded (the JS recursion terminates exactly
on acyclic stores; fuel `nodes.length` suffices for those). -/
def absTLF (nodes : List Node) : Nat → Id → Q × Q
  | 0, _ => (0, 0)
  | fuel+1, id =>
    match getNode nodes id with
    | none => (0, 0)
    | some n =>
      let pTL := match n.parentId with
        | none => ((0 : Q), (0 : Q))
        | some p => absTLF nodes fuel p
      (pTL.1 + (n.x - n.anchorX * n.w), pTL.2 + (n.y - n.anchorY * n.h))

/-- `absAnchor(id, map)`, fuel-bounded. -/
def absAnchorF (nodes : List Node) (fuel : Nat) (id : Id) : Q × Q :=
  match getNode nodes id with
  | none => (0, 0)
  | some n =>
    let pTL := match n.parentId with
      | none => ((0 : Q), (0 : Q))
      | some p => absTLF nodes fuel p
    (pTL.1 + n.x, pTL.2 + n.y)

/-- `absTopLeft` with the standard fuel. -/
def absTopLeft (nodes : List Node) (id : Id) : Q × Q :=
  absTLF nodes nodes.length id

/-- `absAnchor` with the standard fuel. -/
def absAnchor (nodes : List Node) (id : Id) : Q × Q :=
  absAnchorF nodes nodes.length id

/-- The id chain from `id` up to `ROOT` (or to a dangling parent), together
with success: `none` when the fuel runs out, i.e. the walk does not
terminate within `fuel` steps. -/
def chainF (nodes : List Node) : Nat → Id → Option (List Id)
  | 0, _ => none
  | fuel+1, id =>
    match getNode nodes id with
    | none => some [id]
    | some n =>
      match n.parentId with
      | none => some [id]
      | some p => (chainF nodes fuel p).map (fun l => id :: l)

/-- A node's parent chain terminates within `nodes.length` steps and does not
pass through the node itself. -/
def chainOKB (nodes : List Node) (nId : Id) (pid : Option Id) : Bool :=
  match pid with
  | none => true
  | some p =>
    match chainF nodes nodes.length p with
    | none => false
    | some l => !(l.contains nId)

/-- Store well-formedness: the parent graph is acyclic (every walk to `ROOT`
terminates, avoiding the starting node). -/
def Acyclic (nodes : List Node) : Prop :=
  ∀ n ∈ nodes, chainOKB nodes n.id n.parentId = true

instance (nodes : List Node) : Decidable (Acyclic nodes) :=
  List.decidableBAll _ nodes

/-- Node ids are pairwise distinct. -/
def NodupIds (nodes : List Node) : Prop :=
  (nodes.map (fun n => n.id)).Nodup

instance (nodes : List Node) : Decidable (NodupIds nodes) :=
  inferInstanceAs (Decidable (List.Nodup _))

/-- `isDescendant(maybeChildId, maybeParentId)`: ancestor walk from the child,
fuel-bounded. -/
def isDescF (nodes : List Node) : Nat → Option Node → Id → Bool
  | 0, _, _ => false
  | fuel+1, cur, target =>
    match cur with
    | none => false
    | some c =>
      match c.parentId with
      | none => false
      | some p => if p = target then true else isDescF nodes fuel (getNode nodes p) target

/-- `isDescendant` with the standard fuel. -/
def isDescendant (nodes : List Node) (maybeChildId : Id) (maybeParentId : Id) : Bool :=
  isDescF nodes (nodes.length + 1) (getNode nodes maybeChildId) maybeParentId

/-- Replace the node with the given id (JS mutates the object in place). -/
def updateNode (nodes : List Node) (id : Id) (f : Node → Node) : List Node :=
  nodes.map (fun m => if m.id == id then f m else m)

/-- The sort order of `(a, b) => a.zIndex - b.zIndex`. -/
def zle (a b : Node) : Prop := a.zIndex ≤ b.zIndex

instance : DecidableRel zle := fun _ _ => inferInstanceAs (Decidable (_ ≤ _))

instance : IsTotal Node zle :=
  ⟨fun a b => Int.le_total (a.zIndex.n * b.zIndex.d) (b.zIndex.n * a.zIndex.d)⟩

instance : IsTrans Node zle := by
  constructor
  intro a b c hab hbc
  have hb : (0 : Int) < b.zIndex.d := Int.natCast_pos.mpr b.zIndex.dpos
  have h1 := mul_le_mul_of_nonneg_right hab (Int.natCast_nonneg c.zIndex.d)
  have h2 := mul_le_mul_of_nonneg_right hbc (Int.natCast_nonneg a.zIndex.d)
  have h3 : a.zIndex.n * c.zIndex.d * b.zIndex.d ≤ c.zIndex.n * a.zIndex.d * b.zIndex.d := by
    nlinarith
  exact le_of_mul_le_mul_right h3 hb

/-- Siblings sorted ascending by `zIndex`.  `Array.prototype.sort` is stable;
a stable sort under a total preorder comparator is unique, so insertion sort
computes the same sequence. -/
def sortByZ (l : List Node) : List Node :=
  l.insertionSort zle

/-- `siblingsOf(id)`. -/
def siblingsOf (nodes : List Node) (id : Id) : List Node :=
  match getNode nodes id with
  | none => []
  | some n => sortByZ (childrenOf nodes n.parentId)

/-- `nextZIndex(parentId)`: one past the max `zIndex` among the children
(`reduce(Math.max, 0) + 1`). -/
def nextZIndex (nodes : List Node) (pid : Option Id) : Q :=
  (childrenOf nodes pid).foldl (fun acc n => Q.max acc n.zIndex) 0 + 1

/-- `sibs.forEach((n, i) => n.zIndex = i + 1)`: sequentially assign
`zIndex = position + 1` along `order` into the store. -/
def assignSeq (nodes : List Node) (order : List Node) : List Node :=
  order.enum.foldl
    (fun acc p => updateNode acc p.2.id (fun m => { m with zIndex := Q.ofInt ((p.1 : Int) + 1) }))
    nodes

/-- `normalizeZIndices(parentId)`. -/
def normalizeZIndices (nodes : List Node) (pid : Option Id) : List Node :=
  assignSeq nodes (sortByZ (childrenOf nodes pid))

/-- `reparentNode(nodeId, newParentId)` (second snapshot, lines 2057-2079):
keep the world anchor, move to top of the new parent's stack, clamp,
renormalize both z sequences. -/
def reparentNode (s : State) (nodeId : Id) (newParentId : Option Id) : State :=
  match getNode s.nodes nodeId with
  | none => s
  | some n =>
    let oldParent := n.parentId
    if oldParent = newParentId then s
    else
      let worldA := absAnchor s.nodes nodeId
      let nodes1 := updateNode s.nodes nodeId (fun m => { m with parentId := newParentId })
      let newParentTL := match newParentId with
        | none => ((0 : Q), (0 : Q))
        | some p => absTLF nodes1 nodes1.length p
      let nz := nextZIndex nodes1 newParentId
      let nodes2 := updateNode nodes1 nodeId
        (fun m => { m with x := worldA.1 - newParentTL.1, y := worldA.2 - newParentTL.2, zIndex := nz })
      let nodes3 := updateNode nodes2 nodeId (fun m => clampInParent m (parentSize nodes2 newParentId))
      let nodes4 := normalizeZIndices nodes3 newParentId
      let nodes5 := normalizeZIndices nodes4 oldParent
      { s with nodes := nodes5 }

/-- The reparent operation as exposed by the UI (property-panel handler,
lines 2672-2679; the canvas-drop and explorer-drop paths guard identically):
self and descendant targets are rejected before `reparentNode` runs. -/
def reparentChecked (s : State) (nodeId : Id) (pid : Option Id) : State :=
  if pid = some nodeId then s
  else if (match pid with
           | some p => isDescendant s.nodes p nodeId
           | none => false) then s
  else reparentNode s nodeId pid

/-- Drop position for `reorderRelative`. -/
inductive RPos
  | above
  | below
deriving DecidableEq

/-- `reorderRelative(dragId, targetId, pos)` (lines 2098-2127). -/
def reorderRelative (s : State) (dragId targetId : Id) (pos : RPos) : State :=
  match getNode s.nodes dragId, getNode s.nodes targetId with
  | some drag, some target =>
    let pid := target.parentId
    let s1 := if drag.parentId ≠ pid then reparentNode s dragId pid else s
    let sibs := sortByZ (childrenOf s1.nodes pid)
    match sibs.findIdx? (fun n => n.id == dragId), sibs.findIdx? (fun n => n.id == targetId) with
    | some dIdx, some tIdx =>
      match sibs[dIdx]? with
      | none => s1
      | some item =>
        let rest := sibs.eraseIdx dIdx
        let insertAtRaw : Int :=
          match pos with
          | .below => (tIdx : Int) + (if dIdx < tIdx then 0 else 1)
          | .above => (tIdx : Int) + (if dIdx < tIdx then -1 else 0)
        let insertAt := (max 0 (min (rest.length : Int) insertAtRaw)).toNat
        let seq := rest.insertIdx insertAt item
        { s1 with nodes := assignSeq s1.nodes seq }
    | _, _ => s1
  | _, _ => s

/-- `moveUpSelected()` (lines 2129-2143): swap `zIndex` with the previous
sibling in draw order, then renormalize. -/
def moveUpSelected (s : State) : State :=
  match s.selectedId with
  | none => s
  | some id =>
    let sibs := siblingsOf s.nodes id
    match sibs.findIdx? (fun n => n.id == id) with
    | none => s
    | some idx =>
      if idx = 0 then s
      else
        match sibs[idx - 1]?, sibs[idx]? with
        | some a, some b =>
          let az := a.zIndex
          let nodes1 := updateNode s.nodes a.id (fun m => { m with zIndex := b.zIndex })
          let nodes2 := updateNode nodes1 b.id (fun m => { m with zIndex := az })
          { s with nodes := normalizeZIndices nodes2 b.parentId }
        | _, _ => s

/-- `moveDownSelected()` (lines 2145-2158). -/
def moveDownSelected (s : State) : State :=
  match s.selectedId with
  | none => s
  | some id =>
    let sibs := siblingsOf s.nodes id
    match sibs.findIdx? (fun n => n.id == id) with
    | none => s
    | some idx =>
      if idx + 1 ≥ sibs.length then s
      else
        match sibs[idx]?, sibs[idx + 1]? with
        | some a, some b =>
          let az := a.zIndex
          let nodes1 := updateNode s.nodes a.id (fun m => { m with zIndex := b.zIndex })
          let nodes2 := updateNode nodes1 b.id (fun m => { m with zIndex := az })
          { s with nodes := normalizeZIndices nodes2 a.parentId }
        | _, _ => s

/-- One node's step of the delete-closure loop body:
`if (n.parentId && toRemove.has(n.parentId) && !toRemove.has(n.id))`. -/
def closureStep (R : List Id) (n : Node) : List Id :=
  match n.parentId with
  | some p => if R.contains p && !(R.contains n.id) then R ++ [n.id] else R
  | none => R

/-- One pass of the delete-closure loop body (`for (const n of state.nodes)`,
the `Set` is mutated while iterating, hence the sequential fold). -/
def closurePass (nodes : List Node) (R : List Id) : List Id :=
  nodes.foldl closureStep R

/-- `while (changed)` iteration of `closurePass`, fuel-bounded (the loop adds
at least one id per productive pass, so `nodes.length + 1` passes reach the
fixed point). -/
def closureIter (nodes : List Node) : Nat → List Id → List Id
  | 0, R => R
  | fuel+1, R =>
    let R' := closurePass nodes R
    if R' = R then R else closureIter nodes fuel R'

/-- `deleteSelected()` (lines 2821-2845): remove the selected node and its
descendant closure, renormalize the former parent. -/
def deleteSelected (s : State) : State :=
  match s.selectedId with
  | none => s
  | some id =>
    let toRemove := closureIter s.nodes (s.nodes.length + 1) [id]
    let oldParent := match getNode s.nodes id with
      | some n => n.parentId
      | none => none
    let nodes1 := s.nodes.filter (fun n => !(toRemove.contains n.id))
    { s with nodes := normalizeZIndices nodes1 oldParent, selectedId := none }

/-- `duplicateSelected()` (lines 2803-2819); the fresh random id is a
parameter. -/
def duplicateSelected (s : State) (newId : Id) : State :=
  match s.selectedId with
  | none => s
  | some id =>
    match getNode s.nodes id with
    | none => s
    | some n =>
      let copy0 := { n with
        id := newId,
        name := (if n.name = "" then typeName n.type else n.name) ++ "Copy",
        zIndex := nextZIndex s.nodes n.parentId }
      let copy1 := { copy0 with x := copy0.x + 12, y := copy0.y + 12 }
      let copy2 := clampInParent copy1 (parentSize s.nodes copy1.parentId)
      { s with nodes := s.nodes ++ [copy2], selectedId := some newId }

/-- `makeNode(type, parentId)` (lines 1918-1993). -/
def makeNode (nodes : List Node) (ty : NType) (parentId : Option Id) (newId : Id) : Node :=
  let ps := parentSize nodes parentId
  let base : Node := {
    id := newId,
    type := ty,
    name := typeName ty,
    parentId := parentId,
    x := Q.ofInt (Q.round (ps.1 * Q.half)),
    y := Q.ofInt (Q.round (ps.2 * Q.half)),
    w := 240, h := 90,
    anchorX := Q.half, anchorY := Q.half,
    zIndex := nextZIndex nodes parentId,
    bgColor := ⟨50, 50, 55⟩,
    bgAlpha := 1,
    border := false,
    text := "",
    textColor := ⟨255, 255, 255⟩,
    textScaled := true,
    font := "SourceSansBold",
    image := "",
    canvasW := 0, canvasH := 0,
    scrollBarThickness := 6,
    uiObjects := [] }
  let base := match ty with
    | .frame => { base with w := 320, h := 180, bgColor := ⟨38, 38, 44⟩ }
    | .scrollingFrame =>
      { base with w := 360, h := 220, bgColor := ⟨35, 35, 42⟩, canvasW := 520, canvasH := 360, scrollBarThickness := 8 }
    | .textLabel => { base with w := 300, h := 100, bgColor := ⟨30, 30, 30⟩, text := "TextLabel" }
    | .textButton =>
      { base with w := 280, h := 90, bgColor := ⟨48, 48, 58⟩, text := "Button", border := true }
    | .textBox =>
      { base with w := 320, h := 80, bgColor := ⟨28, 28, 34⟩, text := "Type here…", border := true }
    | .imageLabel => { base with w := 280, h := 180, bgColor := ⟨26, 26, 32⟩ }
    | .imageButton => { base with w := 280, h := 180, bgColor := ⟨26, 26, 32⟩, border := true }
    | .viewportFrame => { base with w := 320, h := 220, bgColor := ⟨22, 22, 28⟩, border := true }
  clampInParent base ps

/-- `createNode(type)` (lines 1995-1999): place under `ROOT` and select. -/
def createNode (s : State) (ty : NType) (newId : Id) : State :=
  let node := makeNode s.nodes ty none newId
  { s with nodes := s.nodes ++ [node], selectedId := some node.id }

/-- `updateSelected(mutator)` (lines 2660-2667): mutate the selected node,
then clamp it in its parent. -/
def updateSelected (s : State) (mutF : Node → Node) : State :=
  match s.selectedId with
  | none => s
  | some id =>
    match getNode s.nodes id with
    | none => s
    | some _ =>
      let nodes1 := updateNode s.nodes id mutF
      let nodes2 := updateNode nodes1 id (fun m => clampInParent m (parentSize nodes1 m.parentId))
      { s with nodes := nodes2 }

/-- The X/Y/W/H property-panel edit (`applyXYWH`, lines 2681-2690). -/
def setXYWH (s : State) (vx vy vw vh : Q) : State :=
  updateSelected s (fun n => { n with x := vx, y := vy, w := vw, h := vh })

/-- The `ZIndex` property edit (lines 2700-2703): round the entered value
(`|| 1` on a falsy parse), renormalize the parent, then the surrounding
`updateSelected` clamps the node. -/
def setZIndexProp (s : State) (v : Q) : State :=
  match s.selectedId with
  | none => s
  | some id =>
    match getNode s.nodes id with
    | none => s
    | some n0 =>
      let zv := Q.ofInt (Q.round (if v.n = 0 then 1 else v))
      let nodes1 := updateNode s.nodes id (fun m => { m with zIndex := zv })
      let nodes2 := normalizeZIndices nodes1 n0.parentId
      let nodes3 := updateNode nodes2 id (fun m => clampInParent m (parentSize nodes2 m.parentId))
      { s with nodes := nodes3 }

/-- Resize-handle flags: which edges a handle string (`"n"`, `"se"`, ...)
implicates, via `handle.includes(...)`. -/
structure Handle where
  moveTop : Bool
  moveRight : Bool
  moveBottom : Bool
  moveLeft : Bool
deriving DecidableEq

/-- `applyMove(n, dx, dy, map)` (lines 2556-2560), with the drag-start
position and the parent box passed explicitly. -/
def applyMove (n : Node) (startX startY dx dy : Q) (ps : Q × Q) : Node :=
  clampInParent { n with x := startX + dx, y := startY + dy } ps

/-- `applyResize(n, dx, dy, handle, map)` (lines 2562-2588), with the
drag-start box and the parent box passed explicitly. -/
def applyResize (n : Node) (sx sy sw sh dx dy : Q) (hd : Handle) (ps : Q × Q) : Node :=
  let startTLx := sx - n.anchorX * sw
  let startTLy := sy - n.anchorY * sh
  let tlx := if hd.moveLeft then startTLx + dx else startTLx
  let brx := if hd.moveRight then startTLx + sw + dx else startTLx + sw
  let tly := if hd.moveTop then startTLy + dy else startTLy
  let bry := if hd.moveBottom then startTLy + sh + dy else startTLy + sh
  let tlx2 := if brx - tlx < 20 then (if hd.moveLeft then brx - 20 else tlx) else tlx
  let brx2 := if brx - tlx < 20 then (if hd.moveLeft then brx else tlx + 20) else brx
  let tly2 := if bry - tly < 20 then (if hd.moveTop then bry - 20 else tly) else tly
  let bry2 := if bry - tly < 20 then (if hd.moveTop then bry else tly + 20) else bry
  let w := Q.ofInt (Q.round (brx2 - tlx2))
  let h := Q.ofInt (Q.round (bry2 - tly2))
  let x := tlx2 + n.anchorX * w
  let y := tly2 + n.anchorY * h
  clampInParent { n with w := w, h := h, x := x, y := y } ps

/-- `canvasEventToWorld(e)` (lines 2495-2499): divide the raw pointer offset
by the zoom scalar. -/
def canvasEventToWorld (clientX clientY rectLeft rectTop zoom : Q) : Q × Q :=
  ((clientX - rectLeft) / zoom, (clientY - rectTop) / zoom)

/-- The zoom slider handler (line 2748). -/
def setZoomInput (s : State) (v : Q) : State :=
  { s with zoom := clampQ (v / 100) Q.half 2 }

/-- `defaultProject()` (lines 1870-1909); the random text-node id is a
parameter. -/
def defaultProject (textId : Id) : State :=
  { project := ⟨"HelloWorldGui", false, "PlayerGui", "variables"⟩,
    nodes := [{
      id := textId,
      type := .textLabel,
      name := "TextLabel",
      parentId := none,
      x := Q.ofInt (Q.round (CANVAS_W * Q.half)),
      y := Q.ofInt (Q.round (CANVAS_H * Q.half)),
      w := 300, h := 100,
      anchorX := Q.half, anchorY := Q.half,
      zIndex := 1,
      bgColor := ⟨30, 30, 30⟩,
      bgAlpha := 1,
      border := false,
      text := "hello world",
      textColor := ⟨255, 255, 255⟩,
      textScaled := true,
      font := "SourceSansBold",
      image := "",
      canvasW := 0, canvasH := 0,
      scrollBarThickness := 6,
      uiObjects := [] }],
    selectedId := some textId,
    zoom := 1,
    showSafeArea := false }

/-- `newProject()` (lines 2788-2800): replace the whole store with the
default project. -/
def newProject (_s : State) (textId : Id) : State :=
  defaultProject textId

/-- Result notice of a load attempt (`setStatus` call taken). -/
inductive LoadStatus
  | nothingSaved
  | loaded
  | failed
deriving DecidableEq

/-- A parsed persisted snapshot as `loadFromStorage` discriminates it:
either not an object (includes `null`), or an object whose `nodes` field is
an array (`some`) or not (`none`). -/
inductive Parsed
  | notObject
  | object (nodes : Option (List Node)) (project : Option Project)
      (selectedId : Option Id) (zoom : Option Q) (showSafeArea : Bool)

/-- The raw content of the storage key: absent, unparseable JSON (the
`JSON.parse` throw), or parsed. -/
inductive StoredRaw
  | absent
  | malformedJson
  | parsed (v : Parsed)

/-- `loadFromStorage()` (lines 2769-2787): validate, then replace the store;
on any failure leave the store untouched and report the failure notice. -/
def loadFromStorage (s : State) (raw : StoredRaw) : State × LoadStatus :=
  match raw with
  | .absent => (s, .nothingSaved)
  | .malformedJson => (s, .failed)
  | .parsed .notObject => (s, .failed)
  | .parsed (.object none _ _ _ _) => (s, .failed)
  | .parsed (.object (some nodes) project selectedId zoom ssa) =>
    ({ project := project.getD s.project,
       nodes := nodes,
       selectedId := selectedId,
       zoom := match zoom with
         | none => 1
         | some z => if z.n = 0 then 1 else z,
       showSafeArea := ssa }, .loaded)

/-- JS `\s` whitespace (the characters that occur in this app's data). -/
def isWSChar (c : Char) : Bool := c = ' ' || c = '\t' || c = '\n' || c = '\r'

/-- `.trim()`. -/
def trimStr (s : String) : String :=
  String.mk (((s.toList.dropWhile isWSChar).reverse.dropWhile isWSChar).reverse)

/-- `.trimEnd()`. -/
def trimRightStr (s : String) : String :=
  String.mk ((s.toList.reverse.dropWhile isWSChar).reverse)

/-- `.toLowerCase()`. -/
def lowerStr (s : String) : String :=
  String.mk (s.toList.map Char.toLower)

/-- `escapeLuaString`: escape backslash, double quote, CR and LF. -/
def escapeLuaString (s : String) : String :=
  s.toList.foldl
    (fun acc c =>
      acc ++ (if c = '\\' then "\\\\"
              else if c = '"' then "\\\""
              else if c = '\r' then "\\r"
              else if c = '\n' then "\\n"
              else String.singleton c))
    ""

/-- JS `\w` word character. -/
def isWordChar (c : Char) : Bool := c.isAlphanum || c = '_'

/-- `safeLuaIdent(name)`: non-word characters to `_`, leading digit prefixed
with `_`, empty falls back to `"node"`. -/
def safeLuaIdent (name : String) : String :=
  let cleaned := String.mk (name.toList.map (fun c => if isWordChar c then c else '_'))
  let cleaned2 :=
    match cleaned.toList with
    | c :: _ => if c.isDigit then "_" ++ cleaned else cleaned
    | [] => cleaned
  if cleaned2 = "" then "node" else cleaned2

/-- `.replace(/\s+/g, "")`: strip whitespace. -/
def stripWS (s : String) : String :=
  String.mk (s.toList.filter (fun c => !(c = ' ' || c = '\t' || c = '\n' || c = '\r')))

/-- `base.charAt(0).toLowerCase() + base.slice(1)`. -/
def lowerFirst (s : String) : String :=
  match s.toList with
  | [] => ""
  | c :: rest => String.mk (c.toLower :: rest)

/-- `n.name || n.type`. -/
def nameOr (n : Node) : String :=
  if n.name = "" then typeName n.type else n.name

/-- The `while (taken.has(v)) v = base + (i++)` collision loop. -/
def freshVarGo (taken : List String) (base : String) : Nat → String → Nat → String
  | 0, v, _ => v
  | fuel+1, v, i =>
    if taken.contains v then freshVarGo taken base fuel (base ++ toString i) (i + 1) else v

/-- First collision-free variable name (`base`, `base2`, `base3`, ...).  The
candidates are pairwise distinct, so `taken.length + 2` tries suffice. -/
def freshVar (taken : List String) (base : String) : String :=
  freshVarGo taken base (taken.length + 2) base 2

/-- Smallest `k ≤ limit` with `den ∣ 10^k`. -/
def decPowGo (den : Nat) : Nat → Nat → Option Nat
  | 0, _ => none
  | fuel+1, k => if 10 ^ k % den = 0 then some k else decPowGo den fuel (k + 1)

/-- Left-pad with zeros to `k` characters. -/
def padLeftZeros (s : String) (k : Nat) : String :=
  String.mk (List.replicate (k - s.length) '0') ++ s

/-- JS number-to-string for the exact values the editor produces: integers
print without a decimal point, other finite decimals print in shortest
decimal form (`0.5`, `1.25`, ...), which is what the template literals of the
source produce for these values. -/
def fmtQ (a : Q) : String :=
  let g := Nat.gcd a.n.natAbs a.d
  let num : Int := a.n / (g : Int)
  let den : Nat := a.d / g
  if den = 1 then toString num
  else
    match decPowGo den 64 0 with
    | some k =>
      let scale : Int := ((10 ^ k : Nat) / den : Nat)
      let m := num * scale
      let sign := if m < 0 then "-" else ""
      sign ++ toString (m.natAbs / 10 ^ k) ++ "." ++ padLeftZeros (toString (m.natAbs % 10 ^ k)) k
    | none => toString num ++ "/" ++ toString den

/-- `toFixed(2)` on a nonnegative value: round half up to two decimals. -/
def toFixed2Pos (a : Q) : String :=
  let m := Int.ediv (200 * a.n + a.d) (2 * a.d)
  toString (m.natAbs / 100) ++ "." ++ padLeftZeros (toString (m.natAbs % 100)) 2

/-- `(x).toFixed(2)` (sign split off first, as in the ES specification). -/
def toFixed2 (a : Q) : String :=
  if a.n < 0 then "-" ++ toFixed2Pos ⟨-a.n, a.d, a.dpos⟩ else toFixed2Pos a

/-- `luaBool`. -/
def luaBool (b : Bool) : String := if b then "true" else "false"

/-- `formatColor3`. -/
def formatColor3 (c : RGB) : String :=
  "Color3.fromRGB(" ++ toString c.r ++ ", " ++ toString c.g ++ ", " ++ toString c.b ++ ")"

/-- `depth(id, map)` (lines 2851-2859), fuel-bounded. -/
def depthF (nodes : List Node) : Nat → Option Node → Nat
  | 0, _ => 0
  | fuel+1, cur =>
    match cur with
    | none => 0
    | some n =>
      match n.parentId with
      | none => 0
      | some p => 1 + depthF nodes fuel (getNode nodes p)

/-- `depth` with the standard fuel. -/
def depthOf (nodes : List Node) (id : Id) : Nat :=
  depthF nodes (nodes.length + 1) (getNode nodes id)

/-- Sort order of the export comparator (same parent: by `zIndex`, otherwise
by depth). -/
def expLe (nodes : List Node) (a b : Node) : Prop :=
  if a.parentId = b.parentId then a.zIndex ≤ b.zIndex
  else depthOf nodes a.id ≤ depthOf nodes b.id

instance (nodes : List Node) : DecidableRel (expLe nodes) := fun a b => by
  unfold expLe
  infer_instance

/-- Mutable context of the export pass. -/
structure EmitSt where
  lines : List String
  taken : List String
  varMap : List (Id × String)
  created : List Id

/-- `varNameFor(n)`: memoized unique sanitized identifier. -/
def varNameFor (st : EmitSt) (n : Node) : String × EmitSt :=
  match st.varMap.lookup n.id with
  | some v => (v, st)
  | none =>
    let base := lowerFirst (safeLuaIdent (stripWS (nameOr n)))
    let v := freshVar st.taken base
    (v, { st with taken := st.taken ++ [v], varMap := st.varMap ++ [(n.id, v)] })

/-- Lines emitted for one UI object (lines 2965-3011). -/
def emitUIObj (pre v : String) (useVars : Bool) (obj : UIObj) : List String :=
  let uiVar := (if useVars then v ++ "_" else "ui_") ++ lowerStr (safeLuaIdent obj.type)
  [pre ++ "local " ++ uiVar ++ " = Instance.new(\"" ++ obj.type ++ "\")"]
  ++ (if obj.type = "UICorner" then
        [pre ++ uiVar ++ ".CornerRadius = UDim.new(0, " ++ toString (Q.round (obj.props.cornerRadius.getD 8)) ++ ")"]
      else [])
  ++ (if obj.type = "UIStroke" then
        [pre ++ uiVar ++ ".Thickness = " ++ toString (Q.round (obj.props.thickness.getD 2)),
         pre ++ uiVar ++ ".Color = " ++ formatColor3 (obj.props.color.getD ⟨255, 255, 255⟩),
         pre ++ uiVar ++ ".Transparency = " ++ toFixed2 (clampQ (obj.props.transparency.getD ⟨1, 5, by decide⟩) 0 1)]
      else [])
  ++ (if obj.type = "UIAspectRatioConstraint" then
        [pre ++ uiVar ++ ".AspectRatio = " ++ fmtQ (obj.props.aspectRatio.getD 1)]
      else [])
  ++ (if obj.type = "UITextSizeConstraint" then
        [pre ++ uiVar ++ ".MinTextSize = " ++ toString (Q.round (obj.props.minTextSize.getD 8)),
         pre ++ uiVar ++ ".MaxTextSize = " ++ toString (Q.round (obj.props.maxTextSize.getD 48))]
      else [])
  ++ (if obj.type = "UISizeConstraint" then
        [pre ++ uiVar ++ ".MinSize = Vector2.new(" ++ toString (Q.round (obj.props.minW.getD 0)) ++ ", " ++ toString (Q.round (obj.props.minH.getD 0)) ++ ")",
         pre ++ uiVar ++ ".MaxSize = Vector2.new(" ++ toString (Q.round (obj.props.maxW.getD 0)) ++ ", " ++ toString (Q.round (obj.props.maxH.getD 0)) ++ ")"]
      else [])
  ++ (if obj.type = "UIScale" then
        [pre ++ uiVar ++ ".Scale = " ++ fmtQ (obj.props.scale.getD 1)]
      else [])
  ++ (if obj.type = "UIPadding" then
        [pre ++ uiVar ++ ".PaddingLeft = UDim.new(0, " ++ toString (Q.round (obj.props.left.getD 0)) ++ ")",
         pre ++ uiVar ++ ".PaddingRight = UDim.new(0, " ++ toString (Q.round (obj.props.right.getD 0)) ++ ")",
         pre ++ uiVar ++ ".PaddingTop = UDim.new(0, " ++ toString (Q.round (obj.props.top.getD 0)) ++ ")",
         pre ++ uiVar ++ ".PaddingBottom = UDim.new(0, " ++ toString (Q.round (obj.props.bottom.getD 0)) ++ ")"]
      else [])
  ++ [pre ++ uiVar ++ ".Parent = " ++ v]

/-- `ensure(id)` (lines 2913-3015): emit ancestors first, then the node's
instantiation, properties, parent assignment and UI objects. -/
def ensure (nodes : List Node) (useVars : Bool) : Nat → Id → EmitSt → EmitSt
  | 0, _, st => st
  | fuel+1, id, st =>
    if st.created.contains id then st
    else
      match getNode nodes id with
      | none => st
      | some n =>
        let st1 := match n.parentId with
          | some p => ensure nodes useVars fuel p st
          | none => st
        let pre := if useVars then "" else "  "
        let (v, st2) :=
          if useVars then varNameFor st1 n
          else (safeLuaIdent (lowerStr (typeName n.type)), st1)
        let posX := Q.round (n.x - n.anchorX * n.w)
        let posY := Q.round (n.y - n.anchorY * n.h)
        let body : List String :=
          [pre ++ "local " ++ v ++ " = Instance.new(\"" ++ typeName n.type ++ "\")",
           pre ++ v ++ ".Name = \"" ++ escapeLuaString (nameOr n) ++ "\"",
           pre ++ v ++ ".Size = UDim2.new(0, " ++ toString (Q.round n.w) ++ ", 0, " ++ toString (Q.round n.h) ++ ")",
           pre ++ v ++ ".Position = UDim2.new(0, " ++ toString posX ++ ", 0, " ++ toString posY ++ ")",
           pre ++ v ++ ".AnchorPoint = Vector2.new(" ++ fmtQ n.anchorX ++ ", " ++ fmtQ n.anchorY ++ ")",
           pre ++ v ++ ".ZIndex = " ++ toString (Q.round n.zIndex),
           pre ++ v ++ ".BackgroundColor3 = " ++ formatColor3 n.bgColor,
           pre ++ v ++ ".BackgroundTransparency = " ++ toFixed2 (clampQ ((1 : Q) - n.bgAlpha) 0 1),
           pre ++ v ++ ".BorderSizePixel = " ++ (if n.border then "1" else "0")]
          ++ (if isTextType n then
                [pre ++ v ++ ".TextColor3 = " ++ formatColor3 n.textColor,
                 pre ++ v ++ ".Text = \"" ++ escapeLuaString n.text ++ "\"",
                 pre ++ v ++ ".TextScaled = " ++ luaBool n.textScaled,
                 pre ++ v ++ ".Font = Enum.Font." ++ (if n.font = "" then "SourceSansBold" else n.font)]
              else [])
          ++ (if isImageType n && trimStr n.image ≠ "" then
                [pre ++ v ++ ".Image = \"" ++ escapeLuaString (trimStr n.image) ++ "\""]
              else [])
          ++ (if n.type == NType.scrollingFrame then
                [pre ++ v ++ ".CanvasSize = UDim2.new(0, " ++ toString (Q.round n.canvasW) ++ ", 0, " ++ toString (Q.round n.canvasH) ++ ")",
                 pre ++ v ++ ".ScrollBarThickness = " ++ toString (Q.round n.scrollBarThickness)]
              else [])
          ++ [match n.parentId with
              | none => pre ++ v ++ ".Parent = screenGui"
              | some p =>
                if useVars then pre ++ v ++ ".Parent = " ++ ((st2.varMap.lookup p).getD "screenGui")
                else
                  pre ++ v ++ ".Parent = " ++
                    safeLuaIdent (lowerStr (typeName (match getNode nodes p with
                      | some q => q.type
                      | none => NType.frame)))]
          ++ (n.uiObjects.foldl (fun acc obj => acc ++ emitUIObj pre v useVars obj) [])
          ++ [""]
        { st2 with lines := st2.lines ++ body, created := st2.created ++ [id] }

/-- `exportLua()` (lines 2861-3033): header, then every node in sorted order
through `ensure`; the generated script is the joined, right-trimmed lines. -/
def exportLines (s : State) : List String :=
  let useVars := s.project.outputMode == "variables"
  let guiName := if trimStr s.project.guiName = "" then "ScreenGui" else trimStr s.project.guiName
  let header : List String :=
    if useVars then
      ["local screenGui = Instance.new(\"ScreenGui\")",
       "screenGui.Name = \"" ++ escapeLuaString guiName ++ "\"",
       "screenGui.ResetOnSpawn = " ++ luaBool s.project.resetOnSpawn]
      ++ (if s.project.parent == "PlayerGui" then
            ["local player = game.Players.LocalPlayer",
             "screenGui.Parent = player:WaitForChild(\"PlayerGui\")"]
          else ["screenGui.Parent = game:GetService(\"CoreGui\")"])
      ++ [""]
    else
      ["do",
       "  local screenGui = Instance.new(\"ScreenGui\")",
       "  screenGui.Name = \"" ++ escapeLuaString guiName ++ "\"",
       "  screenGui.ResetOnSpawn = " ++ luaBool s.project.resetOnSpawn]
      ++ (if s.project.parent == "PlayerGui" then
            ["  local player = game.Players.LocalPlayer",
             "  screenGui.Parent = player:WaitForChild(\"PlayerGui\")"]
          else ["  screenGui.Parent = game:GetService(\"CoreGui\")"])
      ++ [""]
  let st0 : EmitSt :=
    { lines := header,
      taken := ["game", "workspace", "script", "player", "screenGui"],
      varMap := [], created := [] }
  let sorted := (s.nodes.insertionSort (expLe s.nodes)).map (fun n => n.id)
  let final := sorted.foldl (fun st id => ensure s.nodes useVars (s.nodes.length + 1) id st) st0
  final.lines ++ (if useVars then [] else ["end"])

/-- The exported script text (`lines.join("\n").trimEnd()`). -/
def exportText (s : State) : String :=
  trimRightStr (String.intercalate "\n" (exportLines s))

/-- The containment invariant of one node against a parent box
(`anchorX*w ≤ x`, `x + (1-anchorX)*w ≤ parentW`, and the y analogue). -/
def containOK (n : Node) (ps : Q × Q) : Prop :=
  n.anchorX * n.w ≤ n.x ∧ n.x + ((1 : Q) - n.anchorX) * n.w ≤ ps.1 ∧
  n.anchorY * n.h ≤ n.y ∧ n.y + ((1 : Q) - n.anchorY) * n.h ≤ ps.2

instance (n : Node) (ps : Q × Q) : Decidable (containOK n ps) :=
  inferInstanceAs (Decidable (_ ∧ _ ∧ _ ∧ _))

/-- The containment invariant for every node of a store. -/
def ContainAll (nodes : List Node) : Prop :=
  ∀ n ∈ nodes, containOK n (parentSize nodes n.parentId)

instance (nodes : List Node) : Decidable (ContainAll nodes) :=
  List.decidableBAll _ nodes

/-- The canonical dense z sequence `1, 2, ..., k`. -/
def denseRange (k : Nat) : List Q :=
  (List.range' 1 k).map (fun i => Q.ofInt (Int.ofNat i))

/-- The z values of one parent's direct children form exactly `{1..N}`. -/
def DenseAt (nodes : List Node) (pid : Option Id) : Prop :=
  ((childrenOf nodes pid).map (fun n => n.zIndex)).Perm
    (denseRange (childrenOf nodes pid).length)

instance (nodes : List Node) (pid : Option Id) : Decidable (DenseAt nodes pid) :=
  List.decidablePerm _ _

/-- Every parent (including `ROOT` and absent parents, which trivially have
no children) has a dense child z sequence. -/
def DenseZ (nodes : List Node) : Prop :=
  ∀ pid, DenseAt nodes pid

/-- Bounded (decidable) version of `DenseZ`: only parents that occur. -/
def DenseZB (nodes : List Node) : Prop :=
  ∀ pid ∈ nodes.map (fun n => n.parentId), DenseAt nodes pid

instance (nodes : List Node) : Decidable (DenseZB nodes) :=
  List.decidableBAll _ _

/-- The reorder sequence as §4.2 of the specification words it: remove the
dragged node from the z-sorted sibling sequence, reinsert it immediately
before (`above`) or immediately after (`below`) the target's position in the
post-removal sequence (index clamped to the valid range), and reassign
`zIndex = index + 1` over the whole sequence.  Spec-side definition used to
check `reorderRelative` against; covers the same-parent case the claim is
about. -/
def reorderRelativeSpec (s : State) (dragId targetId : Id) (pos : RPos) : State :=
  match getNode s.nodes dragId, getNode s.nodes targetId with
  | some _, some target =>
    let pid := target.parentId
    let L := sortByZ (childrenOf s.nodes pid)
    match L.findIdx? (fun n => n.id == dragId) with
    | none => s
    | some dIdx =>
      match L[dIdx]? with
      | none => s
      | some item =>
        let rest := L.eraseIdx dIdx
        match rest.findIdx? (fun n => n.id == targetId) with
        | none => s
        | some k =>
          let idx := match pos with
            | .above => k
            | .below => k + 1
          let idx := min idx rest.length
          { s with nodes := assignSeq s.nodes (rest.insertIdx idx item) }
  | _, _ => s

/-- `lines` contains a statement ending in the given suffix. -/
def hasLineSuffix (lines : List String) (suf : String) : Bool :=
  lines.any (fun l => suf.toList.isSuffixOf l.toList)

/-- A `.Size = ...` statement with the given integer offsets. -/
def sizeStmt (a b : Int) : String :=
  ".Size = UDim2.new(0, " ++ toString a ++ ", 0, " ++ toString b ++ ")"

/-- A `.Position = ...` statement with the given integer offsets. -/
def posStmt (a b : Int) : String :=
  ".Position = UDim2.new(0, " ++ toString a ++ ", 0, " ++ toString b ++ ")"

/-- An `.AnchorPoint = ...` statement with the given fraction pair. -/
def anchorStmt (ax ay : Q) : String :=
  ".AnchorPoint = Vector2.new(" ++ fmtQ ax ++ ", " ++ fmtQ ay ++ ")"

/-- A persisted value the loader must reject: unparseable, not an object, or
an object whose node-list field is not an array. -/
def malformedSnapshot : StoredRaw → Prop
  | .malformedJson => True
  | .parsed .notObject => True
  | .parsed (.object none _ _ _ _) => True
  | _ => False

instance (raw : StoredRaw) : Decidable (malformedSnapshot raw) := by
  unfold malformedSnapshot
  cases raw with
  | absent => exact inferInstanceAs (Decidable False)
  | malformedJson => exact inferInstanceAs (Decidable True)
  | parsed v =>
    cases v with
    | notObject => exact inferInstanceAs (Decidable True)
    | object nodes project sel zoom ssa =>
      cases nodes with
      | none => exact inferInstanceAs (Decidable True)
      | some l => exact inferInstanceAs (Decidable False)

/-- A plain frame node for concrete test stores. -/
def mkFrame (i : Id) (pid : Option Id) (z : Q) : Node :=
  { id := i, type := .frame, name := "Frame", parentId := pid,
    x := 490, y := 310, w := 320, h := 180, anchorX := Q.half, anchorY := Q.half,
    zIndex := z, bgColor := ⟨38, 38, 44⟩, bgAlpha := 1, border := false,
    text := "", textColor := ⟨255, 255, 255⟩, textScaled := true,
    font := "SourceSansBold", image := "", canvasW := 0, canvasH := 0,
    scrollBarThickness := 6, uiObjects := [] }

/-- Three sibling frames `X(z=1), Y(z=2), Z(z=3)` under `ROOT`, `Y` selected. -/
def sThree : State :=
  { project := ⟨"G", false, "PlayerGui", "variables"⟩,
    nodes := [mkFrame 1 none 1, mkFrame 2 none 2, mkFrame 3 none 3],
    selectedId := some 2, zoom := 1, showSafeArea := false }

/-- Like `sThree` but with a sparse z sequence `1, 2, 7` (such stores are
reachable by loading a persisted snapshot). -/
def sSparse : State :=
  { sThree with nodes := [mkFrame 1 none 1, mkFrame 2 none 2, mkFrame 3 none 7] }

/-- A container `A` (id 1, centered) holding a small child `B` (id 2) near
`A`'s right edge; `A` selected. -/
def sParent : State :=
  { project := ⟨"G", false, "PlayerGui", "variables"⟩,
    nodes := [mkFrame 1 none 1,
              { mkFrame 2 (some 1) 1 with x := 290, y := 10, w := 20, h := 20, anchorX := 0, anchorY := 0 }],
    selectedId := some 1, zoom := 1, showSafeArea := false }

/-- A container `A` (id 1) at the top-left corner of the canvas and a node
`n` (id 2) far to the right under `ROOT`. -/
def sFar : State :=
  { project := ⟨"G", false, "PlayerGui", "variables"⟩,
    nodes := [{ mkFrame 1 none 1 with x := 160, y := 90 },
              { mkFrame 2 none 2 with x := 900, y := 300, w := 100, h := 50, anchorX := 0, anchorY := 0 }],
    selectedId := some 2, zoom := 1, showSafeArea := false }

end UIApp

namespace UIApp

/-- The pointwise effect of `assignSeq`: look the node's id up in `order`. -/
def assignFun (order : List Node) (m : Node) : Node :=
  match order.findIdx? (fun o => o.id == m.id) with
  | some i => { m with zIndex := Q.ofInt ((i : Int) + 1) }
  | none => m

/-- Every node carrying a given id has the given parent. -/
def IdParent (nodes : List Node) (i : Id) (p : Option Id) : Prop :=
  ∀ m ∈ nodes, m.id = i → m.parentId = p

/-- The pure two-sibling z exchange: `a` takes `b`'s z value and vice versa;
no other node and no other field is touched. -/
def swapZ (nodes : List Node) (a b : Node) : List Node :=
  updateNode (updateNode nodes a.id (fun m => { m with zIndex := b.zIndex }))
    b.id (fun m => { m with zIndex := a.zIndex })

/-- Maps that do not touch any field entering the world-geometry recursion. -/
def GeoPreserving (f : Node → Node) : Prop :=
  ∀ m, (f m).id = m.id ∧ (f m).parentId = m.parentId ∧ (f m).x = m.x ∧ (f m).y = m.y
    ∧ (f m).w = m.w ∧ (f m).h = m.h ∧ (f m).anchorX = m.anchorX ∧ (f m).anchorY = m.anchorY

end UIApp

namespace Q

theorem dpos_rat (a : Q) : (0 : ℚ) < (a.d : ℚ) := by
  exact_mod_cast a.dpos

theorem dne_rat (a : Q) : (a.d : ℚ) ≠ 0 := ne_of_gt (dpos_rat a)

@[simp] theorem toRat_ofInt (k : Int) : (ofInt k).toRat = (k : ℚ) := by
  simp [ofInt, toRat]

@[simp] theorem toRat_ofNat (k : Nat) : ((OfNat.ofNat k : Q)).toRat = (OfNat.ofNat k : ℚ) := by
  show (ofInt k).toRat = _
  rw [toRat_ofInt]
  norm_cast

theorem le_iff (a b : Q) : a ≤ b ↔ a.toRat ≤ b.toRat := by
  show a.n * (b.d : Int) ≤ b.n * (a.d : Int) ↔ _
  rw [toRat, toRat, div_le_div_iff (dpos_rat a) (dpos_rat b)]
  constructor
  · intro h; exact_mod_cast h
  · intro h; exact_mod_cast h

theorem lt_iff (a b : Q) : a < b ↔ a.toRat < b.toRat := by
  show a.n * (b.d : Int) < b.n * (a.d : Int) ↔ _
  rw [toRat, toRat, div_lt_div_iff (dpos_rat a) (dpos_rat b)]
  constructor
  · intro h; exact_mod_cast h
  · intro h; exact_mod_cast h

theorem ble_iff (a b : Q) : ble a b = true ↔ a.toRat ≤ b.toRat := by
  rw [← le_iff]
  unfold ble
  exact decide_eq_true_iff

@[simp] theorem toRat_add (a b : Q) : (a + b).toRat = a.toRat + b.toRat := by
  show toRat ⟨a.n * b.d + b.n * a.d, a.d * b.d, _⟩ = _
  unfold toRat
  have ha := dne_rat a
  have hb := dne_rat b
  push_cast
  field_simp
  try ring

@[simp] theorem toRat_sub (a b : Q) : (a - b).toRat = a.toRat - b.toRat := by
  show toRat ⟨a.n * b.d - b.n * a.d, a.d * b.d, _⟩ = _
  unfold toRat
  have ha := dne_rat a
  have hb := dne_rat b
  push_cast
  field_simp
  try ring

@[simp] theorem toRat_mul (a b : Q) : (a * b).toRat = a.toRat * b.toRat := by
  show toRat ⟨a.n * b.n, a.d * b.d, _⟩ = _
  unfold toRat
  push_cast
  rw [div_mul_div_comm]

@[simp] theorem toRat_neg (a : Q) : (-a).toRat = -a.toRat := by
  show toRat ⟨-a.n, a.d, _⟩ = _
  unfold toRat
  push_cast
  ring

@[simp] theorem toRat_half : (half).toRat = 1 / 2 := by
  unfold half toRat
  norm_num

@[simp] theorem toRat_min (a b : Q) : (Q.min a b).toRat = Min.min a.toRat b.toRat := by
  unfold Q.min
  cases h : ble a b with
  | false =>
    have hnle : ¬ a.toRat ≤ b.toRat := fun hc => by
      rw [(ble_iff a b).mpr hc] at h
      simp at h
    have hlt : b.toRat < a.toRat := lt_of_not_le hnle
    simp [h, min_eq_right (le_of_lt hlt)]
  | true =>
    have hle := (ble_iff a b).mp h
    simp [h, min_eq_left hle]

@[simp] theorem toRat_max (a b : Q) : (Q.max a b).toRat = Max.max a.toRat b.toRat := by
  unfold Q.max
  cases h : ble a b with
  | false =>
    have hnle : ¬ a.toRat ≤ b.toRat := fun hc => by
      rw [(ble_iff a b).mpr hc] at h
      simp at h
    have hlt : b.toRat < a.toRat := lt_of_not_le hnle
    simp [h, max_eq_left (le_of_lt hlt)]
  | true =>
    have hle := (ble_iff a b).mp h
    simp [h, max_eq_right hle]

@[simp] theorem toRat_abs (a : Q) : (Q.abs a).toRat = |a.toRat| := by
  unfold Q.abs toRat
  rw [abs_div, abs_of_pos (dpos_rat a)]
  push_cast
  rfl

theorem round_eq (a : Q) : round a = ⌊a.toRat + 1 / 2⌋ := by
  unfold round
  set x : Int := 2 * a.n + a.d with hx
  set D : Int := 2 * a.d with hD
  have hDpos : (0 : Int) < D := by
    have := a.dpos
    omega
  have hDne : D ≠ 0 := ne_of_gt hDpos
  set m := x.ediv D with hm
  set r := x.emod D with hr
  have hsum : D * m + r = x := Int.ediv_add_emod x D
  have hr0 : 0 ≤ r := Int.emod_nonneg x hDne
  have hrD : r < D := Int.emod_lt_of_pos x hDpos
  have hq : a.toRat + 1 / 2 = ((m : ℚ)) + (r : ℚ) / (D : ℚ) := by
    have hD2 : (D : ℚ) ≠ 0 := by exact_mod_cast hDne
    have hda := dne_rat a
    have hxq : ((x : ℚ)) = (D : ℚ) * (m : ℚ) + (r : ℚ) := by exact_mod_cast hsum.symm
    rw [toRat]
    rw [div_add_div _ _ hda (by norm_num : (2:ℚ) ≠ 0)]
    have hxx : a.n * 2 + a.d * 1 = (x : ℚ) := by
      rw [hx]; push_cast; ring
    have hdd : (a.d : ℚ) * 2 = (D : ℚ) := by
      rw [hD]; push_cast; ring
    rw [hxx, hdd, hxq]
    field_simp
    ring
  rw [hq]
  have h1 : (0 : ℚ) ≤ (r : ℚ) / (D : ℚ) := by
    apply div_nonneg
    · exact_mod_cast hr0
    · exact_mod_cast le_of_lt hDpos
  have h2 : (r : ℚ) / (D : ℚ) < 1 := by
    rw [div_lt_one (by exact_mod_cast hDpos)]
    exact_mod_cast hrD
  symm
  rw [Int.floor_eq_iff]
  constructor
  · linarith
  · push_cast
    linarith

theorem eq_ofInt_of_d_one (a : Q) (h : a.d = 1) : a = ofInt a.n := by
  cases a with
  | mk n d hd =>
    subst h
    rfl

theorem toRat_d_one (a : Q) (h : a.d = 1) : a.toRat = (a.n : ℚ) := by
  unfold toRat
  rw [h]
  norm_num

end Q

@[simp] theorem Q.toRat_q0 : (0 : Q).toRat = 0 := by
  show (Q.ofInt 0).toRat = 0
  simp

@[simp] theorem Q.toRat_q1 : (1 : Q).toRat = 1 := by
  show (Q.ofInt 1).toRat = 1
  simp

@[simp] theorem Q.toRat_q2 : (2 : Q).toRat = 2 := by
  show (Q.ofInt 2).toRat = 2
  simp

@[simp] theorem Q.toRat_q12 : (12 : Q).toRat = 12 := by
  show (Q.ofInt 12).toRat = 12
  simp

@[simp] theorem Q.toRat_q20 : (20 : Q).toRat = 20 := by
  show (Q.ofInt 20).toRat = 20
  simp

theorem Q.toRat_div (a b : Q) : (a / b).toRat = a.toRat / b.toRat := by
  show (if h : b.n = 0 then _ else _ : Q).toRat = _
  split
  · rename_i h
    have hb : b.toRat = 0 := by
      unfold toRat
      rw [h]
      simp
    rw [hb, div_zero]
    unfold toRat
    simp
  · rename_i h
    unfold toRat
    have hda := Q.dne_rat a
    have hdb := Q.dne_rat b
    have hbn : (b.n : ℚ) ≠ 0 := by exact_mod_cast h
    rcases lt_trichotomy b.n 0 with hneg | hz | hpos
    · have hs : b.n.sign = -1 := Int.sign_eq_neg_one_iff_neg.mpr hneg
      have hbq : (b.n : ℚ) < 0 := by exact_mod_cast hneg
      have hab : (b.n.natAbs : ℚ) = -(b.n : ℚ) := by
        rw [Int.cast_natAbs, abs_of_neg hneg]
        push_cast
        ring
      push_cast [hs, hab]
      field_simp
      try ring
    · exact absurd hz h
    · have hs : b.n.sign = 1 := Int.sign_eq_one_iff_pos.mpr hpos
      have hbq : (0 : ℚ) < (b.n : ℚ) := by exact_mod_cast hpos
      have hab : (b.n.natAbs : ℚ) = (b.n : ℚ) := by
        rw [Int.cast_natAbs, abs_of_pos hpos]
      push_cast [hs, hab]
      field_simp
      try ring

namespace UIApp

/-- `clampQ` lands between its bounds whenever they are ordered. -/
theorem clampQ_between (v a b : Q) (hab : a.toRat ≤ b.toRat) :
    a.toRat ≤ (clampQ v a b).toRat ∧ (clampQ v a b).toRat ≤ b.toRat := by
  unfold clampQ
  rw [Q.toRat_max, Q.toRat_min]
  constructor
  · exact le_max_left _ _
  · exact max_le hab (min_le_left _ _)

/-- `clampInParent` establishes the containment invariant for the clamped
node, for any parent box of at least the 20-unit minimum. -/
theorem clampInParent_contains (n : Node) (ps : Q × Q)
    (hw : (20 : Q) ≤ ps.1) (hh : (20 : Q) ≤ ps.2) :
    containOK (clampInParent n ps) ps := by
  have hw' : (20 : ℚ) ≤ ps.1.toRat := by
    have h := (Q.le_iff _ _).mp hw
    rwa [Q.toRat_q20] at h
  have hh' : (20 : ℚ) ≤ ps.2.toRat := by
    have h := (Q.le_iff _ _).mp hh
    rwa [Q.toRat_q20] at h
  have hW := clampQ_between (Q.ofInt (Q.round n.w)) 20 ps.1 (by rw [Q.toRat_q20]; exact hw')
  have hH := clampQ_between (Q.ofInt (Q.round n.h)) 20 ps.2 (by rw [Q.toRat_q20]; exact hh')
  rw [Q.toRat_q20] at hW hH
  have hXbound : (n.anchorX * clampQ (Q.ofInt (Q.round n.w)) 20 ps.1).toRat
      ≤ (ps.1 - ((1 : Q) - n.anchorX) * clampQ (Q.ofInt (Q.round n.w)) 20 ps.1).toRat := by
    simp only [Q.toRat_sub, Q.toRat_mul, Q.toRat_q1]
    nlinarith [hW.1, hW.2]
  have hYbound : (n.anchorY * clampQ (Q.ofInt (Q.round n.h)) 20 ps.2).toRat
      ≤ (ps.2 - ((1 : Q) - n.anchorY) * clampQ (Q.ofInt (Q.round n.h)) 20 ps.2).toRat := by
    simp only [Q.toRat_sub, Q.toRat_mul, Q.toRat_q1]
    nlinarith [hH.1, hH.2]
  have hX := clampQ_between (Q.ofInt (Q.round n.x)) _ _ hXbound
  have hY := clampQ_between (Q.ofInt (Q.round n.y)) _ _ hYbound
  unfold containOK clampInParent
  simp only
  refine ⟨?_, ?_, ?_, ?_⟩
  · rw [Q.le_iff]
    exact hX.1
  · rw [Q.le_iff]
    simp only [Q.toRat_add, Q.toRat_sub, Q.toRat_mul, Q.toRat_q1] at *
    linarith [hX.2]
  · rw [Q.le_iff]
    exact hY.1
  · rw [Q.le_iff]
    simp only [Q.toRat_add, Q.toRat_sub, Q.toRat_mul, Q.toRat_q1] at *
    linarith [hY.2]

/-- C1 (amended): every geometric mutation ends by clamping the mutated node,
and that clamp establishes the containment invariant for that node against
its parent box (of at least the 20-unit minimum); the invariant is not
re-established for the children of a node whose box an operation shrinks
(see the counterexample). -/
theorem C1_clamped_node_contained :
    (∀ (n : Node) (ps : Q × Q), (20 : Q) ≤ ps.1 → (20 : Q) ≤ ps.2 →
      containOK (clampInParent n ps) ps) ∧
    (∀ (n : Node) (sx sy dx dy : Q) (ps : Q × Q), (20 : Q) ≤ ps.1 → (20 : Q) ≤ ps.2 →
      containOK (applyMove n sx sy dx dy ps) ps) ∧
    (∀ (n : Node) (sx sy sw sh dx dy : Q) (hd : Handle) (ps : Q × Q),
      (20 : Q) ≤ ps.1 → (20 : Q) ≤ ps.2 →
      containOK (applyResize n sx sy sw sh dx dy hd ps) ps) := by
  refine ⟨fun n ps h1 h2 => clampInParent_contains n ps h1 h2,
          fun n sx sy dx dy ps h1 h2 => ?_,
          fun n sx sy sw sh dx dy hd ps h1 h2 => ?_⟩
  · exact clampInParent_contains _ ps h1 h2
  · exact clampInParent_contains _ ps h1 h2

/-- Witness for C1 (amended) at a concrete node and parent box. -/
theorem C1_clamped_node_contained_witness :
    containOK (clampInParent (mkFrame 1 none 1) (980, 620)) (980, 620) :=
  C1_clamped_node_contained.1 (mkFrame 1 none 1) (980, 620) (by decide) (by decide)

/-- C1 (counterexample): shrinking a container through the W/H property edit
leaves its child unclamped: the store-wide containment invariant held before
the property-set operation and is violated after it. -/
theorem C1_counterexample :
    ContainAll sParent.nodes ∧
    ¬ ContainAll ((setXYWH sParent 490 310 100 180).nodes) := by decide

/-- C5: the reparent operation as exposed by the UI silently rejects a target
equal to the node itself or to one of its descendants: the store is returned
entirely unchanged (every node's parent, geometry and z order). -/
theorem C5_reparent_self_or_descendant_noop (s : State) (nodeId : Id) (pid : Option Id)
    (h : pid = some nodeId ∨ (∃ p, pid = some p ∧ isDescendant s.nodes p nodeId = true)) :
    reparentChecked s nodeId pid = s := by
  unfold reparentChecked
  rcases h with h | ⟨p, hp, hd⟩
  · simp [h]
  · subst hp
    by_cases he : (some p : Option Id) = some nodeId
    · simp [he]
    · simp [he, hd]

/-- Witness for C5: dropping container `A` onto its own child `B`. -/
theorem C5_reparent_self_or_descendant_noop_witness :
    reparentChecked sParent 1 (some 2) = sParent :=
  C5_reparent_self_or_descendant_noop sParent 1 (some 2) (Or.inr ⟨2, rfl, by decide⟩)

/-- C7: the code generator is a pure function of the store: identical stores
yield byte-identical script text. -/
theorem C7_export_deterministic (s1 s2 : State) (h : s1 = s2) :
    exportText s1 = exportText s2 := by
  rw [h]

/-- Witness for C7 at the default project. -/
theorem C7_export_deterministic_witness :
    exportText (defaultProject 0) = exportText (defaultProject 0) :=
  C7_export_deterministic (defaultProject 0) (defaultProject 0) rfl

/-- C8: a malformed persisted snapshot (unparseable, not an object, or with a
non-array node list) makes the load fail atomically: the store is returned
unchanged together with the failure notice; the load boundary is a total
function, so no exception escapes it. -/
theorem C8_load_malformed_atomic (s : State) (raw : StoredRaw)
    (h : malformedSnapshot raw) :
    loadFromStorage s raw = (s, LoadStatus.failed) := by
  unfold loadFromStorage
  cases raw with
  | absent => exact absurd h (by simp [malformedSnapshot])
  | malformedJson => rfl
  | parsed v =>
    cases v with
    | notObject => rfl
    | object nodes project sel zoom ssa =>
      cases nodes with
      | none => rfl
      | some l => exact absurd h (by simp [malformedSnapshot])

/-- Witness for C8: loading a snapshot that is not an object. -/
theorem C8_load_malformed_atomic_witness :
    loadFromStorage (defaultProject 0) (StoredRaw.parsed Parsed.notObject)
      = (defaultProject 0, LoadStatus.failed) :=
  C8_load_malformed_atomic (defaultProject 0) (StoredRaw.parsed Parsed.notObject) (by decide)

/-- C9 (counterexample): loading a snapshot whose zoom field is `10` stores
zoom `10`, outside `[0.5, 2.0]` — the loader assigns `parsed.zoom || 1`
without clamping. -/
theorem C9_counterexample :
    (loadFromStorage (defaultProject 0)
        (StoredRaw.parsed (Parsed.object (some []) none none (some (Q.ofInt 10)) false))).1.zoom
        = Q.ofInt 10 ∧
    ¬ ((loadFromStorage (defaultProject 0)
        (StoredRaw.parsed (Parsed.object (some []) none none (some (Q.ofInt 10)) false))).1.zoom
        ≤ (2 : Q)) := by decide

/-- C9 (amended): the zoom-input edit clamps the zoom scalar into
`[0.5, 2.0]` and a new project sets it to `1`; the pointer conversion divides
raw pointer offsets by the zoom scalar.  A loaded snapshot's zoom, however,
is stored as-is (only a falsy value is replaced by `1`). -/
theorem C9_zoom_bounds :
    (∀ (s : State) (v : Q),
      Q.half ≤ (setZoomInput s v).zoom ∧ (setZoomInput s v).zoom ≤ 2) ∧
    (∀ (s : State) (tid : Id),
      Q.half ≤ (newProject s tid).zoom ∧ (newProject s tid).zoom ≤ 2) ∧
    (∀ cx cy rl rt z : Q, z.toRat ≠ 0 →
      (canvasEventToWorld cx cy rl rt z).1.toRat * z.toRat = cx.toRat - rl.toRat ∧
      (canvasEventToWorld cx cy rl rt z).2.toRat * z.toRat = cy.toRat - rt.toRat) := by
  refine ⟨fun s v => ?_, fun s tid => ?_, fun cx cy rl rt z hz => ?_⟩
  · unfold setZoomInput
    have h := clampQ_between (v / 100) Q.half 2 (by rw [Q.toRat_half, Q.toRat_q2]; norm_num)
    constructor
    · rw [Q.le_iff]
      exact h.1
    · rw [Q.le_iff]
      exact h.2
  · show Q.half ≤ (1 : Q) ∧ (1 : Q) ≤ (2 : Q)
    exact ⟨by decide, by decide⟩
  · unfold canvasEventToWorld
    constructor
    · rw [Q.toRat_div, div_mul_cancel₀ _ hz, Q.toRat_sub]
    · rw [Q.toRat_div, div_mul_cancel₀ _ hz, Q.toRat_sub]

/-- Witness for C9 (amended) at concrete inputs. -/
theorem C9_zoom_bounds_witness :
    (Q.half ≤ (setZoomInput (defaultProject 0) 300).zoom ∧
      (setZoomInput (defaultProject 0) 300).zoom ≤ 2) ∧
    (canvasEventToWorld 7 9 1 2 1).1.toRat * (1 : Q).toRat = (7 : Q).toRat - (1 : Q).toRat :=
  ⟨C9_zoom_bounds.1 (defaultProject 0) 300,
   (C9_zoom_bounds.2.2 7 9 1 2 1 (by rw [Q.toRat_q1]; norm_num)).1⟩

end UIApp

namespace UIApp

set_option maxRecDepth 20000 in
/-- C6 (counterexample): the default project's single text node (anchor
0.5/0.5, box 300x100, centered in the 980x620 root) does not export a
position statement with offsets (315, 260): the emitted offset is
`(490-150, 310-50) = (340, 260)`, so the claimed conjunction fails. -/
theorem C6_counterexample :
    ¬ (hasLineSuffix (exportLines (defaultProject 0)) (sizeStmt 300 100) = true ∧
       hasLineSuffix (exportLines (defaultProject 0)) (posStmt 315 260) = true ∧
       hasLineSuffix (exportLines (defaultProject 0)) (anchorStmt Q.half Q.half) = true) := by
  decide

set_option maxRecDepth 20000 in
/-- C6 (amended): the "named" (variables) mode export of the default project
contains a size statement with offsets (300, 100), a position statement with
offsets (340, 260), and an anchor-point statement of (0.5, 0.5). -/
theorem C6_default_export_statements :
    hasLineSuffix (exportLines (defaultProject 0)) (sizeStmt 300 100) = true ∧
    hasLineSuffix (exportLines (defaultProject 0)) (posStmt 340 260) = true ∧
    hasLineSuffix (exportLines (defaultProject 0)) (anchorStmt Q.half Q.half) = true := by
  decide

end UIApp

namespace UIApp

theorem assignSeq_go (order : List Node) (hnd : (order.map (fun o => o.id)).Nodup) :
    ∀ (k : Nat) (nodes : List Node),
      (order.enumFrom k).foldl
        (fun acc p => updateNode acc p.2.id (fun m => { m with zIndex := Q.ofInt ((p.1 : Int) + 1) }))
        nodes
      = nodes.map (fun m =>
          match order.findIdx? (fun o => o.id == m.id) with
          | some i => { m with zIndex := Q.ofInt (((k + i : Nat) : Int) + 1) }
          | none => m) := by
  induction order with
  | nil =>
    intro k nodes
    simp [List.enumFrom]
  | cons o os ih =>
    intro k nodes
    have hndos : (os.map (fun x => x.id)).Nodup := (List.nodup_cons.mp hnd).2
    have hof : o.id ∉ os.map (fun x => x.id) := (List.nodup_cons.mp hnd).1
    rw [show List.enumFrom k (o :: os) = (k, o) :: List.enumFrom (k + 1) os from rfl]
    rw [List.foldl_cons, ih hndos (k + 1)]
    unfold updateNode
    rw [List.map_map]
    apply List.map_congr_left
    intro m _
    simp only [Function.comp]
    by_cases hid : m.id = o.id
    · have hnotos : List.findIdx? (fun o' => o'.id == o.id) os = none := by
        rw [List.findIdx?_eq_none_iff]
        intro x hx
        rw [beq_eq_false_iff_ne]
        intro he
        exact hof (he ▸ List.mem_map_of_mem _ hx)
      simp [hid, hnotos]
    · have hne : (m.id == o.id) = false := beq_eq_false_iff_ne.mpr hid
      have hne2 : (o.id == m.id) = false := beq_eq_false_iff_ne.mpr (fun h => hid h.symm)
      simp only [hne, Bool.false_eq_true, if_false, List.findIdx?_cons, hne2,
        List.findIdx?_start_succ, Nat.zero_add]
      cases hfi : List.findIdx? (fun o' => o'.id == m.id) os with
      | none => simp [hfi]
      | some i =>
        have harith : k + 1 + i = k + (i + 1) := by omega
        simp [hfi, harith]

/-- `assignSeq` acts pointwise when the sequence's ids are distinct. -/
theorem assignSeq_eq_map (nodes order : List Node)
    (hnd : (order.map (fun o => o.id)).Nodup) :
    assignSeq nodes order = nodes.map (assignFun order) := by
  unfold assignSeq assignFun
  rw [show order.enum = List.enumFrom 0 order from rfl]
  rw [assignSeq_go order hnd 0 nodes]
  apply List.map_congr_left
  intro m _
  cases hfi : order.findIdx? (fun o => o.id == m.id) with
  | none => simp [hfi]
  | some i => simp [hfi]

theorem assignFun_id (order : List Node) (m : Node) : (assignFun order m).id = m.id := by
  unfold assignFun
  cases order.findIdx? (fun o => o.id == m.id) <;> rfl

theorem assignFun_parentId (order : List Node) (m : Node) :
    (assignFun order m).parentId = m.parentId := by
  unfold assignFun
  cases order.findIdx? (fun o => o.id == m.id) <;> rfl

theorem assignFun_of_not_mem (order : List Node) (m : Node)
    (h : m.id ∉ order.map (fun o => o.id)) : assignFun order m = m := by
  unfold assignFun
  have : order.findIdx? (fun o => o.id == m.id) = none := by
    rw [List.findIdx?_eq_none_iff]
    intro x hx
    rw [beq_eq_false_iff_ne]
    intro he
    exact h (by rw [← he]; exact List.mem_map_of_mem _ hx)
  rw [this]

/-- Children under a parentId-preserving map. -/
theorem childrenOf_map (nodes : List Node) (g : Node → Node) (pid : Option Id)
    (hg : ∀ m, (g m).parentId = m.parentId) :
    childrenOf (nodes.map g) pid = (childrenOf nodes pid).map g := by
  unfold childrenOf
  induction nodes with
  | nil => rfl
  | cons m ms ih =>
    simp only [List.map_cons, List.filter_cons]
    rw [hg m]
    by_cases hm : (m.parentId == pid) = true
    · simp [hm, ih]
    · simp [hm, ih]

end UIApp

namespace UIApp

theorem mem_childrenOf {nodes : List Node} {pid : Option Id} {m : Node} :
    m ∈ childrenOf nodes pid ↔ m ∈ nodes ∧ m.parentId = pid := by
  unfold childrenOf
  rw [List.mem_filter]
  simp

theorem childrenOf_sublist (nodes : List Node) (pid : Option Id) :
    (childrenOf nodes pid).Sublist nodes :=
  List.filter_sublist _

theorem childrenOf_ids_nodup (nodes : List Node) (pid : Option Id) (hnd : NodupIds nodes) :
    ((childrenOf nodes pid).map (fun n => n.id)).Nodup :=
  ((childrenOf_sublist nodes pid).map _).nodup hnd

theorem eq_of_id_eq {nodes : List Node} (hnd : NodupIds nodes) {a b : Node}
    (ha : a ∈ nodes) (hb : b ∈ nodes) (h : a.id = b.id) : a = b := by
  induction nodes with
  | nil => cases ha
  | cons x xs ih =>
    have hx : x.id ∉ xs.map (fun n => n.id) := (List.nodup_cons.mp hnd).1
    have hxs : NodupIds xs := (List.nodup_cons.mp hnd).2
    rcases List.mem_cons.mp ha with rfl | ha' <;> rcases List.mem_cons.mp hb with rfl | hb'
    · rfl
    · exact absurd (h ▸ List.mem_map_of_mem (fun n => n.id) hb') hx
    · exact absurd (h ▸ List.mem_map_of_mem (fun n => n.id) ha') hx
    · exact ih hxs ha' hb'

theorem findIdx?_self (order : List Node) (hnd : (order.map (fun o => o.id)).Nodup)
    (i : Nat) (h : i < order.length) :
    order.findIdx? (fun o => o.id == order[i].id) = some i := by
  rw [List.findIdx?_eq_some_iff_getElem]
  refine ⟨h, by simp, fun j hji => ?_⟩
  have hj : j < order.length := Nat.lt_trans hji h
  simp only [beq_iff_eq]
  intro he
  have hj' : j < (order.map (fun o => o.id)).length := by simpa using hj
  have hi' : i < (order.map (fun o => o.id)).length := by simpa using h
  have hmap : (order.map (fun o => o.id))[j] = (order.map (fun o => o.id))[i] := by
    rw [List.getElem_map, List.getElem_map]
    exact he
  have heq := (List.Nodup.getElem_inj_iff hnd).mp hmap
  omega

theorem denseRange_length (k : Nat) : (denseRange k).length = k := by
  simp [denseRange]

theorem denseRange_getElem (k i : Nat) (h : i < (denseRange k).length) :
    (denseRange k)[i] = Q.ofInt ((i : Int) + 1) := by
  unfold denseRange
  rw [List.getElem_map]
  rw [List.getElem_range']
  congr 1
  rw [Int.ofNat_eq_coe]
  push_cast
  ring

theorem denseRange_concat (k : Nat) :
    denseRange (k + 1) = denseRange k ++ [Q.ofInt ((k : Int) + 1)] := by
  unfold denseRange
  rw [List.range'_concat, List.map_append]
  have hc : Int.ofNat (1 + 1 * k) = (k : Int) + 1 := by
    rw [Int.ofNat_eq_coe]
    push_cast
    ring
  simp [hc]
  rw [Int.add_comm]

/-- Assigning `zIndex = position + 1` along a permutation of one parent's
children makes that parent's z sequence exactly `{1..N}`. -/
theorem assignSeq_denseAt (nodes order : List Node) (pid : Option Id)
    (hndN : NodupIds nodes)
    (hperm : order.Perm (childrenOf nodes pid)) :
    DenseAt (assignSeq nodes order) pid := by
  have hndO : (order.map (fun o => o.id)).Nodup :=
    ((hperm.map _).nodup_iff).mpr (childrenOf_ids_nodup nodes pid hndN)
  rw [assignSeq_eq_map nodes order hndO]
  unfold DenseAt
  rw [childrenOf_map _ _ _ (assignFun_parentId order), List.map_map, List.length_map]
  have hself : order.map (fun m => (assignFun order m).zIndex) = denseRange order.length := by
    apply List.ext_getElem
    · simp [denseRange_length]
    · intro i hi1 hi2
      rw [List.getElem_map]
      unfold assignFun
      rw [findIdx?_self order hndO i (by simpa using hi1)]
      rw [denseRange_getElem order.length i (by simpa [denseRange_length] using hi1)]
  rw [← hperm.length_eq, ← hself]
  exact hperm.symm.map _

/-- `assignSeq` along one parent's children leaves every other parent's
children untouched. -/
theorem assignSeq_children_other (nodes order : List Node) (pid pid' : Option Id)
    (hndN : NodupIds nodes)
    (hmemO : ∀ o ∈ order, o ∈ nodes ∧ o.parentId = pid)
    (hndO : (order.map (fun o => o.id)).Nodup)
    (hne : pid' ≠ pid) :
    childrenOf (assignSeq nodes order) pid' = childrenOf nodes pid' := by
  rw [assignSeq_eq_map nodes order hndO]
  rw [childrenOf_map _ _ _ (assignFun_parentId order)]
  have : ∀ m ∈ childrenOf nodes pid', assignFun order m = m := by
    intro m hm
    apply assignFun_of_not_mem
    intro hmem
    rcases List.mem_map.mp hmem with ⟨o, ho, hoid⟩
    have hoN := hmemO o ho
    have hmc := mem_childrenOf.mp hm
    have : o = m := eq_of_id_eq hndN hoN.1 hmc.1 hoid
    rw [this] at hoN
    exact hne (hmc.2 ▸ hoN.2)
  rw [List.map_congr_left this, List.map_id']

theorem assignSeq_ids (nodes order : List Node)
    (hndO : (order.map (fun o => o.id)).Nodup) :
    (assignSeq nodes order).map (fun n => n.id) = nodes.map (fun n => n.id) := by
  rw [assignSeq_eq_map nodes order hndO, List.map_map]
  apply List.map_congr_left
  intro m _
  exact assignFun_id order m

end UIApp

namespace UIApp

theorem sortByZ_perm (l : List Node) : (sortByZ l).Perm l :=
  List.perm_insertionSort zle l

/-- `normalizeZIndices` makes the normalized parent dense. -/
theorem normalize_denseAt (nodes : List Node) (pid : Option Id) (hnd : NodupIds nodes) :
    DenseAt (normalizeZIndices nodes pid) pid :=
  assignSeq_denseAt nodes _ pid hnd (sortByZ_perm _)

/-- `normalizeZIndices` leaves every other parent's children unchanged. -/
theorem normalize_children_other (nodes : List Node) (pid pid' : Option Id)
    (hnd : NodupIds nodes) (hne : pid' ≠ pid) :
    childrenOf (normalizeZIndices nodes pid) pid' = childrenOf nodes pid' := by
  apply assignSeq_children_other nodes _ pid pid' hnd
  · intro o ho
    have := (sortByZ_perm (childrenOf nodes pid)).mem_iff.mp ho
    exact ⟨(mem_childrenOf.mp this).1, (mem_childrenOf.mp this).2⟩
  · exact ((sortByZ_perm _).map _).nodup_iff.mpr (childrenOf_ids_nodup nodes pid hnd)
  · exact hne

theorem normalize_denseAt_other (nodes : List Node) (pid pid' : Option Id)
    (hnd : NodupIds nodes) (hne : pid' ≠ pid) (h : DenseAt nodes pid') :
    DenseAt (normalizeZIndices nodes pid) pid' := by
  unfold DenseAt
  rw [normalize_children_other nodes pid pid' hnd hne]
  exact h

theorem normalize_ids (nodes : List Node) (pid : Option Id) (hnd : NodupIds nodes) :
    (normalizeZIndices nodes pid).map (fun n => n.id) = nodes.map (fun n => n.id) :=
  assignSeq_ids nodes _
    (((sortByZ_perm _).map _).nodup_iff.mpr (childrenOf_ids_nodup nodes pid hnd))

theorem normalize_nodup (nodes : List Node) (pid : Option Id) (hnd : NodupIds nodes) :
    NodupIds (normalizeZIndices nodes pid) := by
  unfold NodupIds
  rw [normalize_ids nodes pid hnd]
  exact hnd

/-- `DenseAt` for all parents after normalizing one parent, given it held for
all the others. -/
theorem normalize_denseZ (nodes : List Node) (pid : Option Id) (hnd : NodupIds nodes)
    (h : ∀ pid', pid' ≠ pid → DenseAt nodes pid') :
    DenseZ (normalizeZIndices nodes pid) := by
  intro pid'
  by_cases he : pid' = pid
  · rw [he]
    exact normalize_denseAt nodes pid hnd
  · exact normalize_denseAt_other nodes pid pid' hnd he (h pid' he)

theorem childrenOf_updateNode (nodes : List Node) (i : Id) (f : Node → Node)
    (hf : ∀ m, (f m).parentId = m.parentId) (pid : Option Id) :
    childrenOf (updateNode nodes i f) pid
      = (childrenOf nodes pid).map (fun m => if m.id == i then f m else m) := by
  unfold updateNode
  exact childrenOf_map nodes _ pid (by
    intro m
    by_cases h : m.id = i
    · simp [h, hf]
    · simp [h])

theorem childrenOf_updateNode_irrel (nodes : List Node) (i : Id) (f : Node → Node)
    (pid : Option Id)
    (h : ∀ m ∈ nodes, m.id = i → m.parentId ≠ pid ∧ (f m).parentId ≠ pid) :
    childrenOf (updateNode nodes i f) pid = childrenOf nodes pid := by
  unfold updateNode childrenOf
  induction nodes with
  | nil => rfl
  | cons m ms ih =>
    have hms := fun x hx => h x (List.mem_cons_of_mem m hx)
    simp only [List.map_cons]
    by_cases hid : m.id = i
    · have hm := h m (List.mem_cons_self m ms) hid
      have hbeq : (m.id == i) = true := beq_iff_eq.mpr hid
      have h1 : ((f m).parentId == pid) = false := beq_eq_false_iff_ne.mpr hm.2
      have h2 : (m.parentId == pid) = false := beq_eq_false_iff_ne.mpr hm.1
      rw [if_pos hbeq]
      simp only [List.filter_cons]
      rw [if_neg (by simp [h1]), if_neg (by simp [h2])]
      exact ih hms
    · have hbeq : (m.id == i) = false := beq_eq_false_iff_ne.mpr hid
      rw [if_neg (by simp [hbeq])]
      simp only [List.filter_cons]
      by_cases hp : (m.parentId == pid) = true
      · rw [if_pos hp, if_pos hp, ih hms]
      · rw [if_neg hp, if_neg hp, ih hms]

theorem updateNode_ids (nodes : List Node) (i : Id) (f : Node → Node)
    (hf : ∀ m, (f m).id = m.id) :
    (updateNode nodes i f).map (fun n => n.id) = nodes.map (fun n => n.id) := by
  unfold updateNode
  rw [List.map_map]
  apply List.map_congr_left
  intro m _
  by_cases h : m.id = i
  · simp [h, hf]
  · simp [h]

theorem updateNode_nodup (nodes : List Node) (i : Id) (f : Node → Node)
    (hf : ∀ m, (f m).id = m.id) (hnd : NodupIds nodes) :
    NodupIds (updateNode nodes i f) := by
  unfold NodupIds
  rw [updateNode_ids nodes i f hf]
  exact hnd

/-- Updating a node without touching `parentId` or `zIndex` preserves every
parent's density. -/
theorem DenseAt_updateNode_zkeep (nodes : List Node) (i : Id) (f : Node → Node)
    (hf : ∀ m, (f m).parentId = m.parentId ∧ (f m).zIndex = m.zIndex)
    (pid : Option Id) (h : DenseAt nodes pid) :
    DenseAt (updateNode nodes i f) pid := by
  unfold DenseAt
  rw [childrenOf_updateNode nodes i f (fun m => (hf m).1) pid, List.map_map, List.length_map]
  have : ∀ m ∈ childrenOf nodes pid,
      ((fun n => n.zIndex) ∘ fun m => if m.id == i then f m else m) m = m.zIndex := by
    intro m _
    by_cases hid : m.id = i
    · simp [hid, (hf m).2]
    · simp [hid]
  rw [List.map_congr_left this]
  exact h

theorem ofInt_add_ofInt (a b : Int) : Q.ofInt a + Q.ofInt b = Q.ofInt (a + b) := by
  show (⟨a * 1 + b * 1, 1 * 1, _⟩ : Q) = (⟨a + b, 1, Nat.one_pos⟩ : Q)
  rw [Q.mk.injEq]
  exact ⟨by ring, rfl⟩

theorem qmax_ofInt (a k : Int) : Q.max (Q.ofInt a) (Q.ofInt k) = Q.ofInt (Max.max a k) := by
  unfold Q.max Q.ble Q.ofInt
  simp only [mul_one]
  rw [max_def]
  by_cases h : a ≤ k
  · simp [h]
  · simp [h]

theorem foldl_qmax_int (l : List Q) (a : Int)
    (hl : ∀ z ∈ l, ∃ k : Int, z = Q.ofInt k) :
    ∃ m : Int, l.foldl Q.max (Q.ofInt a) = Q.ofInt m ∧
      (m : ℚ) = l.foldl (fun x z => Max.max x z.toRat) ((a : Int) : ℚ) := by
  revert hl
  induction l generalizing a with
  | nil =>
    intro _
    exact ⟨a, rfl, rfl⟩
  | cons q qs ih =>
    intro hl
    rcases hl q (List.mem_cons_self q qs) with ⟨k, hk⟩
    rcases ih (Max.max a k) (fun w hw => hl w (List.mem_cons_of_mem q hw)) with ⟨m, he, hv⟩
    refine ⟨m, ?_, ?_⟩
    · rw [List.foldl_cons, hk, qmax_ofInt]
      exact he
    · rw [List.foldl_cons, hv, hk]
      congr 1
      rw [Q.toRat_ofInt]
      push_cast
      rfl

theorem foldl_max_denseRange (N : Nat) :
    (denseRange N).foldl (fun x z => Max.max x z.toRat) 0 = (N : ℚ) := by
  induction N with
  | zero => simp [denseRange]
  | succ k ih =>
    rw [denseRange_concat, List.foldl_append, ih]
    simp only [List.foldl_cons, List.foldl_nil, Q.toRat_ofInt]
    rw [max_eq_right]
    · push_cast
      ring
    · push_cast
      linarith

theorem nextZ_dense (nodes : List Node) (pid : Option Id) (h : DenseAt nodes pid) :
    nextZIndex nodes pid = Q.ofInt (((childrenOf nodes pid).length : Int) + 1) := by
  unfold nextZIndex
  have hfold : (childrenOf nodes pid).foldl (fun acc n => Q.max acc n.zIndex) 0
      = ((childrenOf nodes pid).map (fun n => n.zIndex)).foldl Q.max 0 := by
    rw [List.foldl_map]
  rw [hfold]
  set zs := (childrenOf nodes pid).map (fun n => n.zIndex) with hzs
  set N := (childrenOf nodes pid).length with hN
  have hlist : ∀ z ∈ zs, ∃ k : Int, z = Q.ofInt k := by
    intro z hz
    have := (h.mem_iff).mp hz
    unfold denseRange at this
    rcases List.mem_map.mp this with ⟨i, _, rfl⟩
    exact ⟨Int.ofNat i, rfl⟩
  rcases foldl_qmax_int zs 0 hlist with ⟨m, he, hv⟩
  haveI : RightCommutative (fun (x : ℚ) (z : Q) => Max.max x z.toRat) :=
    ⟨fun b x y => by
      show Max.max (Max.max b x.toRat) y.toRat = Max.max (Max.max b y.toRat) x.toRat
      rw [max_assoc, max_assoc, max_comm x.toRat y.toRat]⟩
  have hperm : zs.foldl (fun x z => Max.max x z.toRat) 0
      = (denseRange N).foldl (fun x z => Max.max x z.toRat) 0 :=
    h.foldl_eq 0
  have hvN : (m : ℚ) = (N : ℚ) := by
    rw [hv]
    norm_num
    rw [hperm, foldl_max_denseRange]
  have hm : m = (N : Int) := by exact_mod_cast hvN
  have h00 : (0 : Q) = Q.ofInt 0 := rfl
  rw [h00, he, hm]
  rw [show (1 : Q) = Q.ofInt 1 from rfl, ofInt_add_ofInt]

end UIApp

namespace UIApp

theorem getNode_some_mem {nodes : List Node} {i : Id} {n : Node}
    (h : getNode nodes i = some n) : n ∈ nodes :=
  List.mem_of_find?_eq_some h

theorem getNode_some_id {nodes : List Node} {i : Id} {n : Node}
    (h : getNode nodes i = some n) : n.id = i := by
  have := List.find?_some h
  simpa using this

theorem getNode_mem_self {nodes : List Node} (hnd : NodupIds nodes) {n : Node}
    (hm : n ∈ nodes) : getNode nodes n.id = some n := by
  induction nodes with
  | nil => cases hm
  | cons x xs ih =>
    have hx : x.id ∉ xs.map (fun m => m.id) := (List.nodup_cons.mp hnd).1
    have hxs : NodupIds xs := (List.nodup_cons.mp hnd).2
    unfold getNode
    rcases List.mem_cons.mp hm with rfl | hm'
    · simp [List.find?_cons]
    · rw [List.find?_cons]
      have hne : (x.id == n.id) = false := by
        rw [beq_eq_false_iff_ne]
        intro he
        exact hx (he ▸ List.mem_map_of_mem (fun m => m.id) hm')
      rw [hne]
      exact ih hxs hm'

theorem getNode_updateNode_self {nodes : List Node} {i : Id} {f : Node → Node}
    (hf : ∀ m, (f m).id = m.id) :
    getNode (updateNode nodes i f) i
      = (getNode nodes i).map (fun n => f n) := by
  unfold getNode updateNode
  induction nodes with
  | nil => rfl
  | cons x xs ih =>
    simp only [List.map_cons, List.find?_cons]
    by_cases hx : x.id = i
    · have hbeq : (x.id == i) = true := beq_iff_eq.mpr hx
      rw [if_pos hbeq]
      have h1 : ((f x).id == i) = true := by
        rw [beq_iff_eq, hf]
        exact hx
      rw [h1, hbeq]
      rfl
    · have hbeq : (x.id == i) = false := beq_eq_false_iff_ne.mpr hx
      rw [if_neg (by simp [hbeq])]
      rw [hbeq]
      exact ih

theorem getNode_updateNode_other {nodes : List Node} {i j : Id} {f : Node → Node}
    (hf : ∀ m, (f m).id = m.id) (hj : j ≠ i) :
    getNode (updateNode nodes i f) j = getNode nodes j := by
  unfold getNode updateNode
  induction nodes with
  | nil => rfl
  | cons x xs ih =>
    simp only [List.map_cons, List.find?_cons]
    by_cases hx : x.id = i
    · have hbeq : (x.id == i) = true := beq_iff_eq.mpr hx
      rw [if_pos hbeq]
      have h1 : ((f x).id == j) = false := by
        rw [beq_eq_false_iff_ne, hf]
        intro he
        exact hj (by rw [← he, hx])
      rw [h1]
      have h2 : (x.id == j) = false := by
        rw [beq_eq_false_iff_ne]
        intro he
        exact hj (he ▸ hx)
      rw [h2]
      exact ih
    · have hbeq : (x.id == i) = false := beq_eq_false_iff_ne.mpr hx
      rw [if_neg (by simp [hbeq])]
      cases hq : (x.id == j) with
      | true => rfl
      | false => exact ih

theorem childrenOf_updateNode_target {nodes : List Node} {i : Id} {f : Node → Node}
    {n : Node} (hnd : NodupIds nodes) (hn : getNode nodes i = some n)
    (pid : Option Id) (hp : n.parentId ≠ pid) (hfp : (f n).parentId ≠ pid) :
    childrenOf (updateNode nodes i f) pid = childrenOf nodes pid := by
  apply childrenOf_updateNode_irrel
  intro m hm hid
  have hmn : m = n := eq_of_id_eq hnd hm (getNode_some_mem hn) (by rw [hid, getNode_some_id hn])
  subst hmn
  exact ⟨hp, hfp⟩

theorem childrenOf_append (nodes : List Node) (n0 : Node) (pid : Option Id) :
    childrenOf (nodes ++ [n0]) pid
      = childrenOf nodes pid ++ (if n0.parentId = pid then [n0] else []) := by
  unfold childrenOf
  rw [List.filter_append]
  congr 1
  by_cases h : n0.parentId = pid
  · simp [h]
  · simp [h]

theorem DenseAt_append_top (nodes : List Node) (n0 : Node) (pid : Option Id)
    (h : DenseAt nodes pid) (hp : n0.parentId = pid)
    (hz : n0.zIndex = Q.ofInt (((childrenOf nodes pid).length : Int) + 1)) :
    DenseAt (nodes ++ [n0]) pid := by
  unfold DenseAt
  rw [childrenOf_append, if_pos hp]
  rw [List.map_append, List.length_append]
  simp only [List.map_cons, List.map_nil, List.length_cons, List.length_nil]
  rw [hz, denseRange_concat]
  exact h.append_right _

theorem DenseAt_append_other (nodes : List Node) (n0 : Node) (pid : Option Id)
    (h : DenseAt nodes pid) (hp : n0.parentId ≠ pid) :
    DenseAt (nodes ++ [n0]) pid := by
  unfold DenseAt
  rw [childrenOf_append, if_neg hp, List.append_nil]
  exact h

end UIApp

namespace UIApp

theorem perm_insertIdx_cons (l : List Node) (a : Node) (k : Nat) (hk : k ≤ l.length) :
    (List.insertIdx k a l).Perm (a :: l) := by
  induction l generalizing k with
  | nil =>
    have hk0 : k = 0 := by simpa using hk
    subst hk0
    simp
  | cons hd tl ih =>
    cases k with
    | zero => simp
    | succ k =>
      rw [List.insertIdx_succ_cons]
      have hk' : k ≤ tl.length := by simpa using hk
      exact ((ih k hk').cons hd).trans (List.Perm.swap a hd tl)

theorem perm_cons_eraseIdx (l : List Node) (i : Nat) (hi : i < l.length) :
    l.Perm (l[i] :: l.eraseIdx i) := by
  conv_lhs => rw [← List.take_append_drop i l]
  rw [List.eraseIdx_eq_take_drop_succ]
  have hdrop : l.drop i = l[i] :: l.drop (i + 1) := List.drop_eq_getElem_cons hi
  rw [hdrop]
  exact List.perm_middle

theorem clampInParent_parentId (n : Node) (ps : Q × Q) :
    (clampInParent n ps).parentId = n.parentId := rfl

theorem clampInParent_zIndex (n : Node) (ps : Q × Q) :
    (clampInParent n ps).zIndex = n.zIndex := rfl

theorem clampInParent_id (n : Node) (ps : Q × Q) :
    (clampInParent n ps).id = n.id := rfl

theorem makeNode_parentId (nodes : List Node) (ty : NType) (pid : Option Id) (newId : Id) :
    (makeNode nodes ty pid newId).parentId = pid := by
  unfold makeNode
  cases ty <;> rfl

theorem makeNode_zIndex (nodes : List Node) (ty : NType) (pid : Option Id) (newId : Id) :
    (makeNode nodes ty pid newId).zIndex = nextZIndex nodes pid := by
  unfold makeNode
  cases ty <;> rfl

/-- C2, create: pushing a node with `nextZIndex` keeps every parent dense. -/
theorem createNode_denseZ (s : State) (ty : NType) (newId : Id)
    (h : DenseZ s.nodes) : DenseZ (createNode s ty newId).nodes := by
  unfold createNode
  intro pid
  by_cases hp : (none : Option Id) = pid
  · exact DenseAt_append_top s.nodes _ pid (h pid)
      ((makeNode_parentId s.nodes ty none newId).trans hp)
      (by rw [makeNode_zIndex, ← hp, nextZ_dense s.nodes none (h none)])
  · exact DenseAt_append_other s.nodes _ pid (h pid)
      (by rw [makeNode_parentId]; exact hp)

/-- C2, duplicate: the copy carries `nextZIndex` of its parent. -/
theorem duplicateSelected_denseZ (s : State) (newId : Id)
    (h : DenseZ s.nodes) : DenseZ (duplicateSelected s newId).nodes := by
  unfold duplicateSelected
  cases hsel : s.selectedId with
  | none =>
    simp only [hsel]
    exact h
  | some selId =>
    cases hn : getNode s.nodes selId with
    | none =>
      simp only [hsel, hn]
      exact h
    | some n =>
      simp only [hsel, hn]
      intro pid
      by_cases hp : n.parentId = pid
      · refine DenseAt_append_top s.nodes _ pid (h pid) ?_ ?_
        · rw [clampInParent_parentId]
          exact hp
        · rw [clampInParent_zIndex]
          show nextZIndex s.nodes n.parentId = _
          rw [hp]
          exact nextZ_dense s.nodes pid (h pid)
      · refine DenseAt_append_other s.nodes _ pid (h pid) ?_
        rw [clampInParent_parentId]
        exact hp

/-- C2, ZIndex property edit: the edited node's parent is renormalized and
no other parent's children change. -/
theorem setZIndexProp_denseZ (s : State) (v : Q)
    (hnd : NodupIds s.nodes) (h : DenseZ s.nodes) :
    DenseZ (setZIndexProp s v).nodes := by
  unfold setZIndexProp
  cases hsel : s.selectedId with
  | none =>
    simp only [hsel]
    exact h
  | some selId =>
    cases hn : getNode s.nodes selId with
    | none =>
      simp only [hsel, hn]
      exact h
    | some n0 =>
      simp only [hsel, hn]
      intro pid
      have hnd1 : NodupIds (updateNode s.nodes selId
          (fun m => { m with zIndex := Q.ofInt (Q.round (if v.n = 0 then 1 else v)) })) :=
        updateNode_nodup _ _ _ (fun m => rfl) hnd
      have hd2 : DenseZ (normalizeZIndices (updateNode s.nodes selId
          (fun m => { m with zIndex := Q.ofInt (Q.round (if v.n = 0 then 1 else v)) }))
          n0.parentId) := by
        apply normalize_denseZ _ _ hnd1
        intro pid' hne
        unfold DenseAt
        rw [childrenOf_updateNode_target hnd hn pid'
          (fun hc => hne (by rw [← hc])) (fun hc => hne (by rw [← hc]))]
        exact h pid'
      refine DenseAt_updateNode_zkeep _ _ _ ?_ pid (hd2 pid)
      exact fun m => ⟨rfl, rfl⟩

end UIApp

namespace UIApp

theorem mem_updateNode {nodes : List Node} {i : Id} {f : Node → Node} {m : Node}
    (hm : m ∈ updateNode nodes i f) :
    ∃ m0 ∈ nodes, m = if m0.id == i then f m0 else m0 := by
  unfold updateNode at hm
  rcases List.mem_map.mp hm with ⟨m0, hm0, he⟩
  exact ⟨m0, hm0, he.symm⟩

theorem idParent_set (nodes : List Node) (i : Id) (p : Option Id) :
    IdParent (updateNode nodes i (fun m => { m with parentId := p })) i p := by
  intro m hm hid
  rcases mem_updateNode hm with ⟨m0, _, rfl⟩
  by_cases h0 : m0.id = i
  · simp [beq_iff_eq.mpr h0]
  · rw [if_neg (by simp [beq_eq_false_iff_ne.mpr h0])] at hid ⊢
    exact absurd hid h0

theorem idParent_keep (nodes : List Node) (i j : Id) (p : Option Id) (f : Node → Node)
    (hf : ∀ m, (f m).parentId = m.parentId ∧ (f m).id = m.id)
    (h : IdParent nodes i p) :
    IdParent (updateNode nodes j f) i p := by
  intro m hm hid
  rcases mem_updateNode hm with ⟨m0, hm0, rfl⟩
  by_cases h0 : m0.id = j
  · rw [if_pos (beq_iff_eq.mpr h0)] at hid ⊢
    rw [(hf m0).1]
    exact h m0 hm0 (by rw [← (hf m0).2]; exact hid)
  · rw [if_neg (by simp [beq_eq_false_iff_ne.mpr h0])] at hid ⊢
    exact h m0 hm0 hid

theorem childrenOf_updateNode_idparent (nodes : List Node) (i : Id) (p : Option Id)
    (f : Node → Node) (hf : ∀ m, (f m).parentId = m.parentId)
    (hip : IdParent nodes i p) (pid' : Option Id) (hne : pid' ≠ p) :
    childrenOf (updateNode nodes i f) pid' = childrenOf nodes pid' := by
  apply childrenOf_updateNode_irrel
  intro m hm hid
  have hp := hip m hm hid
  exact ⟨by rw [hp]; exact fun hc => hne hc.symm, by rw [hf, hp]; exact fun hc => hne hc.symm⟩

/-- Swapping the z values of two same-parent nodes and renormalizing their
parent keeps every parent dense. -/
theorem swap_normalize_denseZ (nodes : List Node) (hnd : NodupIds nodes)
    (h : DenseZ nodes) (a b : Node) (ha : a ∈ nodes) (hb : b ∈ nodes)
    (pidN : Option Id) (hpa : a.parentId = pidN) (hpb : b.parentId = pidN) (za zb : Q) :
    DenseZ (normalizeZIndices
      (updateNode (updateNode nodes a.id (fun m => { m with zIndex := za }))
        b.id (fun m => { m with zIndex := zb })) pidN) := by
  have hnd1 : NodupIds (updateNode nodes a.id (fun m => { m with zIndex := za })) :=
    updateNode_nodup _ _ _ (fun m => rfl) hnd
  have hnd2 : NodupIds (updateNode (updateNode nodes a.id (fun m => { m with zIndex := za }))
      b.id (fun m => { m with zIndex := zb })) :=
    updateNode_nodup _ _ _ (fun m => rfl) hnd1
  apply normalize_denseZ _ _ hnd2
  intro pid' hne
  have hipa : IdParent nodes a.id pidN := by
    intro m hm hid
    rw [eq_of_id_eq hnd hm ha hid]
    exact hpa
  have hipb : IdParent nodes b.id pidN := by
    intro m hm hid
    rw [eq_of_id_eq hnd hm hb hid]
    exact hpb
  have hipb1 : IdParent (updateNode nodes a.id (fun m => { m with zIndex := za })) b.id pidN :=
    idParent_keep _ _ _ _ _ (fun m => ⟨rfl, rfl⟩) hipb
  unfold DenseAt
  rw [childrenOf_updateNode_idparent _ b.id pidN (fun m => { m with zIndex := zb })
    (fun m => rfl) hipb1 pid' hne]
  rw [childrenOf_updateNode_idparent _ a.id pidN (fun m => { m with zIndex := za })
    (fun m => rfl) hipa pid' hne]
  exact h pid'

/-- C2, move up: swap with the previous sibling then renormalize. -/
theorem moveUpSelected_denseZ (s : State) (hnd : NodupIds s.nodes)
    (h : DenseZ s.nodes) : DenseZ (moveUpSelected s).nodes := by
  unfold moveUpSelected siblingsOf
  cases hsel : s.selectedId with
  | none =>
    simp only [hsel]
    exact h
  | some selId =>
    cases hg : getNode s.nodes selId with
    | none =>
      simp only [hsel, hg, List.findIdx?_nil]
      exact h
    | some n =>
      simp only [hsel, hg]
      cases hfi : (sortByZ (childrenOf s.nodes n.parentId)).findIdx? (fun m => m.id == selId) with
      | none => exact h
      | some idx =>
        by_cases hz : idx = 0
        · simp only [hz]
          exact h
        · simp only [if_neg hz]
          cases hga : (sortByZ (childrenOf s.nodes n.parentId))[idx - 1]? with
          | none => exact h
          | some a =>
            cases hgb : (sortByZ (childrenOf s.nodes n.parentId))[idx]? with
            | none => exact h
            | some b =>
              have hamem : a ∈ sortByZ (childrenOf s.nodes n.parentId) :=
                List.getElem?_mem hga
              have hbmem : b ∈ sortByZ (childrenOf s.nodes n.parentId) :=
                List.getElem?_mem hgb
              have ham := mem_childrenOf.mp ((sortByZ_perm _).mem_iff.mp hamem)
              have hbm := mem_childrenOf.mp ((sortByZ_perm _).mem_iff.mp hbmem)
              dsimp only
              exact swap_normalize_denseZ s.nodes hnd h a b ham.1 hbm.1 b.parentId
                (ham.2.trans hbm.2.symm) rfl b.zIndex a.zIndex

/-- C2, move down: swap with the next sibling then renormalize. -/
theorem moveDownSelected_denseZ (s : State) (hnd : NodupIds s.nodes)
    (h : DenseZ s.nodes) : DenseZ (moveDownSelected s).nodes := by
  unfold moveDownSelected siblingsOf
  cases hsel : s.selectedId with
  | none =>
    simp only [hsel]
    exact h
  | some selId =>
    cases hg : getNode s.nodes selId with
    | none =>
      simp only [hsel, hg, List.findIdx?_nil]
      exact h
    | some n =>
      simp only [hsel, hg]
      cases hfi : (sortByZ (childrenOf s.nodes n.parentId)).findIdx? (fun m => m.id == selId) with
      | none => exact h
      | some idx =>
        by_cases hz : idx + 1 ≥ (sortByZ (childrenOf s.nodes n.parentId)).length
        · simp only [if_pos hz]
          exact h
        · simp only [if_neg hz]
          cases hga : (sortByZ (childrenOf s.nodes n.parentId))[idx]? with
          | none => exact h
          | some a =>
            cases hgb : (sortByZ (childrenOf s.nodes n.parentId))[idx + 1]? with
            | none => exact h
            | some b =>
              have hamem : a ∈ sortByZ (childrenOf s.nodes n.parentId) :=
                List.getElem?_mem hga
              have hbmem : b ∈ sortByZ (childrenOf s.nodes n.parentId) :=
                List.getElem?_mem hgb
              have ham := mem_childrenOf.mp ((sortByZ_perm _).mem_iff.mp hamem)
              have hbm := mem_childrenOf.mp ((sortByZ_perm _).mem_iff.mp hbmem)
              dsimp only
              exact swap_normalize_denseZ s.nodes hnd h a b ham.1 hbm.1 a.parentId
                rfl (hbm.2.trans ham.2.symm) b.zIndex a.zIndex

end UIApp

namespace UIApp

/-- Id list preserved along the reparent pipeline
(set parent, place, clamp, renormalize twice). -/
theorem reparent_pipeline_ids (nodes : List Node) (i : Id) (p oldP : Option Id)
    (f2 f3 : Node → Node)
    (hf2 : ∀ m, (f2 m).id = m.id) (hf3 : ∀ m, (f3 m).id = m.id)
    (hnd : NodupIds nodes) :
    (normalizeZIndices (normalizeZIndices
        (updateNode (updateNode (updateNode nodes i (fun m => { m with parentId := p })) i f2)
          i f3) p) oldP).map (fun n => n.id)
      = nodes.map (fun n => n.id) := by
  have hnd1 : NodupIds (updateNode nodes i (fun m => { m with parentId := p })) :=
    updateNode_nodup _ _ _ (fun m => rfl) hnd
  have hnd2 : NodupIds (updateNode (updateNode nodes i (fun m => { m with parentId := p }))
      i f2) := updateNode_nodup _ _ _ hf2 hnd1
  have hnd3 : NodupIds (updateNode (updateNode (updateNode nodes i
      (fun m => { m with parentId := p })) i f2) i f3) :=
    updateNode_nodup _ _ _ hf3 hnd2
  have hnd4 : NodupIds (normalizeZIndices (updateNode (updateNode (updateNode nodes i
      (fun m => { m with parentId := p })) i f2) i f3) p) :=
    normalize_nodup _ _ hnd3
  rw [normalize_ids _ _ hnd4, normalize_ids _ _ hnd3, updateNode_ids _ _ _ hf3,
    updateNode_ids _ _ _ hf2,
    updateNode_ids nodes i (fun m => { m with parentId := p }) (fun m => rfl)]

theorem reparent_pipeline_nodup (nodes : List Node) (i : Id) (p oldP : Option Id)
    (f2 f3 : Node → Node)
    (hf2 : ∀ m, (f2 m).id = m.id) (hf3 : ∀ m, (f3 m).id = m.id)
    (hnd : NodupIds nodes) :
    NodupIds (normalizeZIndices (normalizeZIndices
        (updateNode (updateNode (updateNode nodes i (fun m => { m with parentId := p })) i f2)
          i f3) p) oldP) := by
  unfold NodupIds
  rw [reparent_pipeline_ids nodes i p oldP f2 f3 hf2 hf3 hnd]
  exact hnd

/-- Density is restored for every parent along the reparent pipeline. -/
theorem reparent_pipeline_denseZ (nodes : List Node) (i : Id) (p oldP : Option Id)
    (f2 f3 : Node → Node)
    (hf2 : ∀ m, (f2 m).id = m.id ∧ (f2 m).parentId = m.parentId)
    (hf3 : ∀ m, (f3 m).id = m.id ∧ (f3 m).parentId = m.parentId)
    (hnd : NodupIds nodes) (h : DenseZ nodes)
    (hip : ∀ m ∈ nodes, m.id = i → m.parentId = oldP) :
    DenseZ (normalizeZIndices (normalizeZIndices
        (updateNode (updateNode (updateNode nodes i (fun m => { m with parentId := p })) i f2)
          i f3) p) oldP) := by
  have hnd1 : NodupIds (updateNode nodes i (fun m => { m with parentId := p })) :=
    updateNode_nodup _ _ _ (fun m => rfl) hnd
  have hnd2 : NodupIds (updateNode (updateNode nodes i (fun m => { m with parentId := p }))
      i f2) := updateNode_nodup _ _ _ (fun m => (hf2 m).1) hnd1
  have hnd3 : NodupIds (updateNode (updateNode (updateNode nodes i
      (fun m => { m with parentId := p })) i f2) i f3) :=
    updateNode_nodup _ _ _ (fun m => (hf3 m).1) hnd2
  have hnd4 : NodupIds (normalizeZIndices (updateNode (updateNode (updateNode nodes i
      (fun m => { m with parentId := p })) i f2) i f3) p) :=
    normalize_nodup _ _ hnd3
  apply normalize_denseZ _ _ hnd4
  intro pid' hneO
  by_cases hep : pid' = p
  · rw [hep]
    exact normalize_denseAt _ _ hnd3
  · unfold DenseAt
    rw [normalize_children_other _ _ _ hnd3 hep]
    have hip1 : IdParent (updateNode nodes i (fun m => { m with parentId := p })) i p :=
      idParent_set nodes i p
    have hip2 : IdParent (updateNode (updateNode nodes i (fun m => { m with parentId := p }))
        i f2) i p :=
      idParent_keep _ _ _ _ _ (fun m => ⟨(hf2 m).2, (hf2 m).1⟩) hip1
    rw [childrenOf_updateNode_idparent _ i p f3 (fun m => (hf3 m).2) hip2 pid' hep]
    rw [childrenOf_updateNode_idparent _ i p f2 (fun m => (hf2 m).2) hip1 pid' hep]
    rw [childrenOf_updateNode_irrel nodes i _ pid' ?_]
    · exact h pid'
    · intro m hm hid
      constructor
      · rw [hip m hm hid]
        exact fun hc => hneO hc.symm
      · exact fun hc => hep hc.symm

theorem reparentNode_ids (s : State) (i : Id) (p : Option Id) (hnd : NodupIds s.nodes) :
    (reparentNode s i p).nodes.map (fun n => n.id) = s.nodes.map (fun n => n.id) := by
  unfold reparentNode
  cases hg : getNode s.nodes i with
  | none => rfl
  | some n =>
    dsimp only
    by_cases he : n.parentId = p
    · rw [if_pos he]
    · rw [if_neg he]
      refine reparent_pipeline_ids s.nodes i p n.parentId ?_ ?_ ?_ ?_ hnd
      · exact fun m => rfl
      · exact fun m => clampInParent_id _ _

theorem reparentNode_nodup (s : State) (i : Id) (p : Option Id) (hnd : NodupIds s.nodes) :
    NodupIds (reparentNode s i p).nodes := by
  unfold NodupIds
  rw [reparentNode_ids s i p hnd]
  exact hnd

/-- C2, reparent: both the source and the destination parent are
renormalized, so density holds everywhere afterwards. -/
theorem reparentNode_denseZ (s : State) (i : Id) (p : Option Id)
    (hnd : NodupIds s.nodes) (h : DenseZ s.nodes) :
    DenseZ (reparentNode s i p).nodes := by
  unfold reparentNode
  cases hg : getNode s.nodes i with
  | none => exact h
  | some n =>
    dsimp only
    by_cases he : n.parentId = p
    · rw [if_pos he]
      exact h
    · rw [if_neg he]
      refine reparent_pipeline_denseZ s.nodes i p n.parentId ?_ ?_ ?_ ?_ hnd h ?_
      · exact fun m => ⟨rfl, rfl⟩
      · exact fun m => ⟨clampInParent_id _ _, clampInParent_parentId _ _⟩
      · intro m hm hid
        rw [eq_of_id_eq hnd hm (getNode_some_mem hg) (hid.trans (getNode_some_id hg).symm)]

end UIApp

namespace UIApp

/-- Reassigning `1..N` along "remove one sibling, reinsert it elsewhere"
keeps every parent dense. -/
theorem assignSeq_insert_denseZ (nodes : List Node) (pid : Option Id) (sibs : List Node)
    (item : Node) (dIdx insertAt : Nat)
    (hnd : NodupIds nodes) (h : DenseZ nodes)
    (hsibs : sibs.Perm (childrenOf nodes pid))
    (hitem : sibs[dIdx]? = some item)
    (hk : insertAt ≤ (sibs.eraseIdx dIdx).length) :
    DenseZ (assignSeq nodes ((sibs.eraseIdx dIdx).insertIdx insertAt item)) := by
  obtain ⟨hlt, hget⟩ := List.getElem?_eq_some_iff.mp hitem
  have hperm : ((sibs.eraseIdx dIdx).insertIdx insertAt item).Perm (childrenOf nodes pid) := by
    refine ((perm_insertIdx_cons _ item insertAt hk).trans ?_).trans hsibs
    have := perm_cons_eraseIdx sibs dIdx hlt
    rw [hget] at this
    exact this.symm
  intro pid'
  by_cases hpe : pid' = pid
  · rw [hpe]
    exact assignSeq_denseAt nodes _ pid hnd hperm
  · unfold DenseAt
    rw [assignSeq_children_other nodes _ pid pid' hnd ?_ ?_ hpe]
    · exact h pid'
    · intro o ho
      exact mem_childrenOf.mp (hperm.subset ho)
    · exact (hperm.map _).nodup_iff.mpr (childrenOf_ids_nodup nodes pid hnd)

/-- C2, drag-reorder: after the optional reparent, the sibling sequence is a
permutation of the parent's children and gets `1..N` reassigned. -/
theorem reorderRelative_denseZ (s : State) (dragId targetId : Id) (pos : RPos)
    (hnd : NodupIds s.nodes) (h : DenseZ s.nodes) :
    DenseZ (reorderRelative s dragId targetId pos).nodes := by
  unfold reorderRelative
  cases hgd : getNode s.nodes dragId with
  | none => exact h
  | some drag =>
    cases hgt : getNode s.nodes targetId with
    | none => exact h
    | some target =>
      dsimp only
      set s1 := if drag.parentId ≠ target.parentId then reparentNode s dragId target.parentId
        else s with hs1def
      have hs1nd : NodupIds s1.nodes := by
        rw [hs1def]
        split
        · exact reparentNode_nodup s dragId target.parentId hnd
        · exact hnd
      have hs1 : DenseZ s1.nodes := by
        rw [hs1def]
        split
        · exact reparentNode_denseZ s dragId target.parentId hnd h
        · exact h
      cases hfd : (sortByZ (childrenOf s1.nodes target.parentId)).findIdx?
          (fun n => n.id == dragId) with
      | none => exact hs1
      | some dIdx =>
        cases hft : (sortByZ (childrenOf s1.nodes target.parentId)).findIdx?
            (fun n => n.id == targetId) with
        | none => exact hs1
        | some tIdx =>
          dsimp only
          cases hgi : (sortByZ (childrenOf s1.nodes target.parentId))[dIdx]? with
          | none => exact hs1
          | some item =>
            dsimp only
            exact assignSeq_insert_denseZ s1.nodes target.parentId _ item dIdx _
              hs1nd hs1 (sortByZ_perm _) hgi
              (Int.toNat_le.mpr (max_le (Int.natCast_nonneg _) (min_le_left _ _)))

end UIApp

namespace UIApp

theorem closureStep_mem_mono {x : Id} (R : List Id) (n : Node) (hx : x ∈ R) :
    x ∈ closureStep R n := by
  unfold closureStep
  cases n.parentId with
  | none => exact hx
  | some p =>
    dsimp only
    split
    · exact List.mem_append_left _ hx
    · exact hx

theorem closurePass_mem_mono {x : Id} (nodes : List Node) (R : List Id) (hx : x ∈ R) :
    x ∈ closurePass nodes R := by
  induction nodes generalizing R with
  | nil => exact hx
  | cons m ms ih => exact ih _ (closureStep_mem_mono R m hx)

/-- Any node whose parent is already in the set ends up in the set after one
pass (possibly added earlier in the same pass). -/
theorem closurePass_closed (nodes : List Node) (R : List Id) (n : Node) (hn : n ∈ nodes)
    (p : Id) (hp : n.parentId = some p) (hpR : p ∈ R) : n.id ∈ closurePass nodes R := by
  induction nodes generalizing R with
  | nil => cases hn
  | cons m ms ih =>
    rcases List.mem_cons.mp hn with he | hmem
    · subst he
      apply closurePass_mem_mono ms
      unfold closureStep
      rw [hp]
      dsimp only
      by_cases hc : (R.contains p && !(R.contains n.id)) = true
      · rw [if_pos hc]
        exact List.mem_append_right _ (List.mem_singleton_self _)
      · rw [if_neg hc]
        have hcp : R.contains p = true := by simpa using hpR
        rw [hcp] at hc
        simp only [Bool.true_and, Bool.not_eq_true'] at hc
        have : R.contains n.id = true := by
          cases hcontains : R.contains n.id
          · exact absurd hcontains hc
          · rfl
        simpa using this
    · exact ih _ hmem (closureStep_mem_mono R m hpR)

/-- A pass either changes nothing or strictly adds some node id that was
missing from the set. -/
theorem closurePass_progress (nodes : List Node) (R : List Id) :
    closurePass nodes R = R
      ∨ ∃ x, x ∈ nodes.map (fun n => n.id) ∧ x ∉ R ∧ x ∈ closurePass nodes R := by
  induction nodes generalizing R with
  | nil => exact Or.inl rfl
  | cons m ms ih =>
    by_cases hstep : closureStep R m = R
    · have hrw : closurePass (m :: ms) R = closurePass ms R := by
        show closurePass ms (closureStep R m) = closurePass ms R
        rw [hstep]
      rcases ih R with h | ⟨x, hx1, hx2, hx3⟩
      · exact Or.inl (hrw.trans h)
      · refine Or.inr ⟨x, ?_, hx2, hrw ▸ hx3⟩
        rw [List.map_cons]
        exact List.mem_cons_of_mem _ hx1
    · right
      have key : closureStep R m = R ++ [m.id] ∧ m.id ∉ R := by
        unfold closureStep at hstep ⊢
        cases hmp : m.parentId with
        | none =>
          rw [hmp] at hstep
          exact absurd rfl hstep
        | some p =>
          rw [hmp] at hstep
          dsimp only
          by_cases hc : (R.contains p && !(R.contains m.id)) = true
          · rw [if_pos hc]
            refine ⟨rfl, ?_⟩
            have hid : R.contains m.id = false := by
              have := (Bool.and_eq_true_iff.mp hc).2
              simpa using this
            intro hmem
            have : R.contains m.id = true := by simpa using hmem
            rw [this] at hid
            cases hid
          · dsimp only at hstep
            rw [if_neg hc] at hstep
            exact absurd rfl hstep
      refine ⟨m.id, ?_, key.2, ?_⟩
      · rw [List.map_cons]
        exact List.mem_cons_self _ _
      · show m.id ∈ closurePass ms (closureStep R m)
        apply closurePass_mem_mono ms
        rw [key.1]
        exact List.mem_append_right _ (List.mem_singleton_self _)

/-- Every id the closure ever contains is either a seed or the id of a node
whose parent id is also in the closure. -/
theorem closurePass_origin (nodes : List Node) (R : List Id) (x : Id)
    (hx : x ∈ closurePass nodes R) :
    x ∈ R ∨ ∃ m ∈ nodes, m.id = x ∧ ∃ p, m.parentId = some p ∧ p ∈ closurePass nodes R := by
  induction nodes generalizing R with
  | nil => exact Or.inl hx
  | cons n ns ih =>
    have hx' : x ∈ closurePass ns (closureStep R n) := hx
    rcases ih _ hx' with hstep | ⟨m, hm, hid, p, hp, hpmem⟩
    · unfold closureStep at hstep
      cases hmp : n.parentId with
      | none =>
        rw [hmp] at hstep
        exact Or.inl hstep
      | some p =>
        rw [hmp] at hstep
        dsimp only at hstep
        by_cases hc : (R.contains p && !(R.contains n.id)) = true
        · rw [if_pos hc] at hstep
          rcases List.mem_append.mp hstep with h | h
          · exact Or.inl h
          · right
            refine ⟨n, List.mem_cons_self _ _, (List.mem_singleton.mp h).symm, p, hmp, ?_⟩
            have hcp : R.contains p = true := (Bool.and_eq_true_iff.mp hc).1
            have hpR : p ∈ R := by simpa using hcp
            show p ∈ closurePass ns (closureStep R n)
            exact closurePass_mem_mono ns _ (closureStep_mem_mono R n hpR)
        · rw [if_neg hc] at hstep
          exact Or.inl hstep
    · exact Or.inr ⟨m, List.mem_cons_of_mem _ hm, hid, p, hp, hpmem⟩

theorem closureIter_mem_mono {x : Id} (nodes : List Node) (fuel : Nat) (R : List Id)
    (hx : x ∈ R) : x ∈ closureIter nodes fuel R := by
  induction fuel generalizing R with
  | zero => exact hx
  | succ f ih =>
    unfold closureIter
    dsimp only
    split
    · exact hx
    · exact ih _ (closurePass_mem_mono nodes R hx)

/-- Strict measure decrease: a changed pass strictly reduces the number of
node ids missing from the set. -/
theorem closurePass_measure_lt (nodes : List Node) (R : List Id)
    (hne : closurePass nodes R ≠ R) :
    (nodes.map (fun n => n.id)).countP (fun x => !((closurePass nodes R).contains x))
      < (nodes.map (fun n => n.id)).countP (fun x => !(R.contains x)) := by
  rcases closurePass_progress nodes R with h | ⟨x, hx1, hx2, hx3⟩
  · exact absurd h hne
  · have hperm := List.perm_cons_erase hx1
    rw [hperm.countP_eq, hperm.countP_eq]
    rw [List.countP_cons, List.countP_cons]
    have hpx : (!(R.contains x)) = true := by
      have hrc : R.contains x = false := by simpa using hx2
      rw [hrc]
      rfl
    have hqx : (!((closurePass nodes R).contains x)) = true → False := by
      intro hcontra
      have : (closurePass nodes R).contains x = true := by simpa using hx3
      rw [this] at hcontra
      cases hcontra
    rw [if_pos hpx, if_neg hqx]
    have hmono : ((nodes.map (fun n => n.id)).erase x).countP
        (fun y => !((closurePass nodes R).contains y))
        ≤ ((nodes.map (fun n => n.id)).erase x).countP (fun y => !(R.contains y)) := by
      apply List.countP_mono_left
      intro a _ ha
      have haR : ¬ a ∈ R := by
        intro hmem
        have h1 : (closurePass nodes R).contains a = true := by
          simpa using closurePass_mem_mono nodes R hmem
        rw [h1] at ha
        cases ha
      have hrc : R.contains a = false := by simpa using haR
      rw [hrc]
      rfl
    omega

/-- With fuel exceeding the number of missing node ids, `closureIter` reaches
a fixed point of `closurePass`. -/
theorem closureIter_fix (nodes : List Node) (fuel : Nat) (R : List Id)
    (hfuel : (nodes.map (fun n => n.id)).countP (fun x => !(R.contains x)) < fuel) :
    closurePass nodes (closureIter nodes fuel R) = closureIter nodes fuel R := by
  induction fuel generalizing R with
  | zero => exact absurd hfuel (Nat.not_lt_zero _)
  | succ f ih =>
    unfold closureIter
    dsimp only
    by_cases hfx : closurePass nodes R = R
    · rw [if_pos hfx]
      exact hfx
    · rw [if_neg hfx]
      apply ih
      have := closurePass_measure_lt nodes R hfx
      omega

theorem closureIter_origin (nodes : List Node) (fuel : Nat) (R : List Id) (x : Id)
    (hx : x ∈ closureIter nodes fuel R) :
    x ∈ R ∨ ∃ m ∈ nodes, m.id = x ∧ ∃ p, m.parentId = some p ∧ p ∈ closureIter nodes fuel R := by
  induction fuel generalizing R with
  | zero => exact Or.inl hx
  | succ f ih =>
    unfold closureIter at hx ⊢
    dsimp only at hx ⊢
    by_cases hfx : closurePass nodes R = R
    · rw [if_pos hfx] at hx ⊢
      exact Or.inl hx
    · rw [if_neg hfx] at hx ⊢
      rcases ih _ hx with h1 | ⟨m, hm, hid, p, hp, hpmem⟩
      · rcases closurePass_origin nodes R x h1 with h2 | ⟨m, hm, hid, p, hp, hpmem⟩
        · exact Or.inl h2
        · exact Or.inr ⟨m, hm, hid, p, hp, closureIter_mem_mono nodes f _ hpmem⟩
      · exact Or.inr ⟨m, hm, hid, p, hp, hpmem⟩

theorem filter_nodupIds (nodes : List Node) (p : Node → Bool) (hnd : NodupIds nodes) :
    NodupIds (nodes.filter p) := by
  unfold NodupIds at *
  exact hnd.sublist ((nodes.filter_sublist).map _)

end UIApp

namespace UIApp

theorem getNode_isSome_of_mem {nodes : List Node} {c : Node} (hc : c ∈ nodes) :
    ∃ n, getNode nodes c.id = some n := by
  have : (nodes.find? (fun n => n.id == c.id)).isSome :=
    List.find?_isSome.mpr ⟨c, hc, by simp⟩
  exact Option.isSome_iff_exists.mp this

/-- C2, delete: the removed set is parent-closed and every removed non-seed
node's parent is also removed, so the surviving children of each parent are
either all of them (parent untouched), none (parent removed), or the
renormalized former parent of the deleted root. -/
theorem deleteSelected_denseZ (s : State) (hnd : NodupIds s.nodes)
    (h : DenseZ s.nodes) : DenseZ (deleteSelected s).nodes := by
  unfold deleteSelected
  cases hsel : s.selectedId with
  | none => exact h
  | some selId =>
    dsimp only
    have hfix : closurePass s.nodes (closureIter s.nodes (s.nodes.length + 1) [selId])
        = closureIter s.nodes (s.nodes.length + 1) [selId] := by
      apply closureIter_fix
      calc (s.nodes.map (fun n => n.id)).countP (fun x => !(([selId] : List Id).contains x))
          ≤ (s.nodes.map (fun n => n.id)).length := List.countP_le_length _
        _ = s.nodes.length := List.length_map _ _
        _ < s.nodes.length + 1 := Nat.lt_succ_self _
    set R := closureIter s.nodes (s.nodes.length + 1) [selId] with hR
    set nodes1 := s.nodes.filter (fun n => !(R.contains n.id)) with hnodes1
    have hnd1 : NodupIds nodes1 := filter_nodupIds s.nodes _ hnd
    apply normalize_denseZ _ _ hnd1
    intro pid' hne
    by_cases hqr : ∃ q, pid' = some q ∧ q ∈ R
    · obtain ⟨q, rfl, hqmem⟩ := hqr
      have hempty : childrenOf nodes1 (some q) = [] := by
        rw [hnodes1]
        unfold childrenOf
        apply List.filter_eq_nil_iff.mpr
        intro c hc
        have hcmem := List.mem_filter.mp hc
        intro hpar
        have hpar' : c.parentId = some q := by simpa using hpar
        have hcid : c.id ∈ R := by
          have := closurePass_closed s.nodes R c hcmem.1 q hpar' hqmem
          rw [hfix] at this
          exact this
        have hcont : R.contains c.id = true := by simpa using hcid
        have := hcmem.2
        rw [hcont] at this
        cases this
      unfold DenseAt
      rw [hempty]
      rfl
    · push_neg at hqr
      have hchildren : childrenOf nodes1 pid' = childrenOf s.nodes pid' := by
        rw [hnodes1]
        unfold childrenOf
        rw [List.filter_filter]
        apply List.filter_congr
        intro c hc
        by_cases hpar : (c.parentId == pid') = true
        · rw [hpar, Bool.true_and]
          have hkeepR : c.id ∈ R → False := by
            intro hcid
            rcases closureIter_origin s.nodes _ _ _ hcid with hseed | ⟨m, hm, hid, p, hp, hpR⟩
            · have hcsel : c.id = selId := List.mem_singleton.mp hseed
              obtain ⟨n, hg⟩ := getNode_isSome_of_mem hc
              rw [hcsel] at hg
              rw [hg] at hne
              have hcn : c = n :=
                eq_of_id_eq hnd hc (getNode_some_mem hg) (hcsel.trans (getNode_some_id hg).symm)
              have hpar' : c.parentId = pid' := by simpa using hpar
              exact hne (hpar' ▸ (hcn ▸ rfl))
            · have hmc : m = c := eq_of_id_eq hnd hm hc hid
              have hpar' : c.parentId = pid' := by simpa using hpar
              rw [hmc, hpar'] at hp
              exact hqr p hp hpR
          have : R.contains c.id = false := by
            cases hcr : R.contains c.id
            · rfl
            · exact absurd (by simpa using hcr) (fun hx => hkeepR hx)
          rw [this]
          rfl
        · have hf : (c.parentId == pid') = false := by
            cases hx : (c.parentId == pid')
            · rfl
            · exact absurd hx hpar
          rw [hf, Bool.false_and]
      unfold DenseAt
      rw [hchildren]
      exact h pid'

end UIApp

namespace UIApp

/-- A parent id that occurs on no node has no children, so the bounded
density check implies density for every parent. -/
theorem DenseZ_of_DenseZB (nodes : List Node) (hB : DenseZB nodes) : DenseZ nodes := by
  intro pid
  by_cases hmem : pid ∈ nodes.map (fun n => n.parentId)
  · exact hB pid hmem
  · have hempty : childrenOf nodes pid = [] := by
      unfold childrenOf
      apply List.filter_eq_nil_iff.mpr
      intro c hc hpar
      exact hmem (List.mem_map.mpr ⟨c, hc, by simpa using hpar⟩)
    unfold DenseAt
    rw [hempty]
    exact List.Perm.refl _

/-- C2: starting from a store with unique ids whose z sequences are dense,
every structural operation (create, reparent, drag-reorder, swap up/down,
duplicate, delete, ZIndex property edit) leaves, for every parent, the
multiset of the direct children's z values exactly `{1..N}`. -/
theorem C2_structural_ops_keep_z_dense (s : State)
    (hnd : NodupIds s.nodes) (h : DenseZ s.nodes) :
    (∀ ty newId, DenseZ (createNode s ty newId).nodes)
    ∧ (∀ i p, DenseZ (reparentNode s i p).nodes)
    ∧ (∀ dragId targetId pos, DenseZ (reorderRelative s dragId targetId pos).nodes)
    ∧ DenseZ (moveUpSelected s).nodes
    ∧ DenseZ (moveDownSelected s).nodes
    ∧ (∀ newId, DenseZ (duplicateSelected s newId).nodes)
    ∧ DenseZ (deleteSelected s).nodes
    ∧ (∀ v, DenseZ (setZIndexProp s v).nodes) :=
  ⟨fun ty newId => createNode_denseZ s ty newId h,
   fun i p => reparentNode_denseZ s i p hnd h,
   fun dragId targetId pos => reorderRelative_denseZ s dragId targetId pos hnd h,
   moveUpSelected_denseZ s hnd h,
   moveDownSelected_denseZ s hnd h,
   fun newId => duplicateSelected_denseZ s newId h,
   deleteSelected_denseZ s hnd h,
   fun v => setZIndexProp_denseZ s v hnd h⟩

/-- Witness for C2 on a concrete three-sibling store. -/
theorem C2_structural_ops_keep_z_dense_witness :
    NodupIds sThree.nodes ∧ DenseZ sThree.nodes
      ∧ DenseZ (moveUpSelected sThree).nodes
      ∧ DenseZ (reorderRelative sThree 1 3 RPos.below).nodes :=
  ⟨by decide, DenseZ_of_DenseZB sThree.nodes (by decide),
   (C2_structural_ops_keep_z_dense sThree (by decide)
     (DenseZ_of_DenseZB sThree.nodes (by decide))).2.2.2.1,
   (C2_structural_ops_keep_z_dense sThree (by decide)
     (DenseZ_of_DenseZB sThree.nodes (by decide))).2.2.1 1 3 RPos.below⟩

end UIApp

namespace UIApp

theorem Q.eq_of_parts {a b : Q} (h1 : a.n = b.n) (h2 : a.d = b.d) : a = b := by
  cases a
  cases b
  cases h1
  cases h2
  rfl

theorem denseRange_d_one (k : Nat) : ∀ q ∈ denseRange k, q.d = 1 := by
  intro q hq
  unfold denseRange at hq
  rcases List.mem_map.mp hq with ⟨i, _, rfl⟩
  rfl

theorem denseRange_map_n (k : Nat) :
    (denseRange k).map (fun q => q.n) = (List.range' 1 k).map Int.ofNat := by
  unfold denseRange
  rw [List.map_map]
  rfl

theorem denseRange_sorted_n (k : Nat) :
    ((List.range' 1 k).map Int.ofNat).Pairwise (· ≤ ·) := by
  apply List.pairwise_map.mpr
  exact (List.pairwise_lt_range' 1 k).imp (fun h => Int.ofNat_le.mpr (Nat.le_of_lt h))

/-- Under density, the z values along the z-sorted children are literally
`1, 2, ..., N` in order. -/
theorem sortByZ_map_z_eq_denseRange (nodes : List Node) (pid : Option Id)
    (hd : DenseAt nodes pid) :
    (sortByZ (childrenOf nodes pid)).map (fun n => n.zIndex)
      = denseRange (sortByZ (childrenOf nodes pid)).length := by
  have hlen : (sortByZ (childrenOf nodes pid)).length = (childrenOf nodes pid).length :=
    (sortByZ_perm _).length_eq
  have hperm : ((sortByZ (childrenOf nodes pid)).map (fun n => n.zIndex)).Perm
      (denseRange (sortByZ (childrenOf nodes pid)).length) := by
    rw [hlen]
    exact ((sortByZ_perm _).map _).trans hd
  have hmemd : ∀ q ∈ (sortByZ (childrenOf nodes pid)).map (fun n => n.zIndex), q.d = 1 :=
    fun q hq => denseRange_d_one _ q (hperm.subset hq)
  have hsortS : (sortByZ (childrenOf nodes pid)).Pairwise zle :=
    List.sorted_insertionSort zle _
  have hPairQ : ((sortByZ (childrenOf nodes pid)).map (fun n => n.zIndex)).Pairwise
      (fun q q' => q ≤ q') := List.pairwise_map.mpr hsortS
  have hPairN : ((sortByZ (childrenOf nodes pid)).map (fun n => n.zIndex)).Pairwise
      (fun q q' => q.n ≤ q'.n) := by
    refine hPairQ.imp_of_mem ?_
    intro qa qb hqa hqb hle
    have ha := hmemd _ hqa
    have hb := hmemd _ hqb
    change qa.n * (qb.d : Int) ≤ qb.n * (qa.d : Int) at hle
    rw [ha, hb] at hle
    simpa using hle
  have heqInt : ((sortByZ (childrenOf nodes pid)).map (fun n => n.zIndex)).map (fun q => q.n)
      = (denseRange (sortByZ (childrenOf nodes pid)).length).map (fun q => q.n) := by
    refine List.eq_of_perm_of_sorted (hperm.map _) (List.pairwise_map.mpr hPairN) ?_
    rw [denseRange_map_n]
    exact denseRange_sorted_n _
  apply List.ext_getElem
  · rw [hperm.length_eq]
  · intro i h1 h2
    apply Q.eq_of_parts
    · have h1' : i < (((sortByZ (childrenOf nodes pid)).map (fun n => n.zIndex)).map
          (fun q => q.n)).length := by simpa using h1
      have hx := List.getElem_of_eq heqInt h1'
      simp only [List.getElem_map] at hx ⊢
      exact hx
    · rw [hmemd _ (List.getElem_mem h1), denseRange_d_one _ _ (List.getElem_mem h2)]

/-- Renormalizing an already dense parent does not change the store. -/
theorem normalize_eq_self_of_denseAt (nodes : List Node) (pid : Option Id)
    (hnd : NodupIds nodes) (hd : DenseAt nodes pid) :
    normalizeZIndices nodes pid = nodes := by
  have hndS : ((sortByZ (childrenOf nodes pid)).map (fun o => o.id)).Nodup :=
    ((sortByZ_perm _).map _).nodup_iff.mpr (childrenOf_ids_nodup nodes pid hnd)
  unfold normalizeZIndices
  rw [assignSeq_eq_map _ _ hndS]
  have hmapz := sortByZ_map_z_eq_denseRange nodes pid hd
  have hpt : ∀ m ∈ nodes, assignFun (sortByZ (childrenOf nodes pid)) m = m := by
    intro m hm
    unfold assignFun
    cases hfi : (sortByZ (childrenOf nodes pid)).findIdx? (fun o => o.id == m.id) with
    | none => rfl
    | some i =>
      obtain ⟨hi, hpi, _⟩ := List.findIdx?_eq_some_iff_getElem.mp hfi
      have hmemS : (sortByZ (childrenOf nodes pid))[i] ∈ sortByZ (childrenOf nodes pid) :=
        List.getElem_mem hi
      have hSm : (sortByZ (childrenOf nodes pid))[i] = m := by
        apply eq_of_id_eq hnd ?_ hm (by simpa using hpi)
        exact (mem_childrenOf.mp ((sortByZ_perm _).subset hmemS)).1
      have hlen2 : i < ((sortByZ (childrenOf nodes pid)).map (fun n => n.zIndex)).length := by
        simpa using hi
      have h1 := List.getElem_of_eq hmapz hlen2
      rw [List.getElem_map, hSm] at h1
      have h2 := denseRange_getElem (sortByZ (childrenOf nodes pid)).length i
        (by simpa [denseRange_length] using hi)
      have hz : m.zIndex = Q.ofInt ((i : Int) + 1) := h1.trans h2
      dsimp only
      rw [← hz]
  rw [List.map_congr_left hpt, List.map_id']

end UIApp

namespace UIApp

/-- Exchanging the z values of two distinct-id members permutes the z
multiset. -/
theorem map_swap_perm (l : List Node) (hids : (l.map (fun n => n.id)).Nodup)
    (a b : Node) (hal : a ∈ l) (hbl : b ∈ l) (hne : a.id ≠ b.id) :
    (l.map (fun m => if m.id == b.id then a.zIndex
        else if m.id == a.id then b.zIndex else m.zIndex)).Perm
      (l.map (fun n => n.zIndex)) := by
  have hba : b ≠ a := fun h => hne (by rw [h])
  have hlnd : l.Nodup := List.Nodup.of_map _ hids
  have hb' : b ∈ l.erase a := (List.mem_erase_of_ne hba).mpr hbl
  have hl2 : l.Perm (a :: b :: (l.erase a).erase b) :=
    (List.perm_cons_erase hal).trans ((List.perm_cons_erase hb').cons a)
  have hl2mem : ∀ m ∈ (l.erase a).erase b, m.id ≠ a.id ∧ m.id ≠ b.id := by
    intro m hm
    have hm1 : m ∈ l.erase a := List.mem_of_mem_erase hm
    have hm0 : m ∈ l := List.mem_of_mem_erase hm1
    refine ⟨fun hid => ?_, fun hid => ?_⟩
    · have hma : m = a := eq_of_id_eq hids hm0 hal hid
      rw [hma] at hm1
      exact ((List.Nodup.mem_erase_iff hlnd).mp hm1).1 rfl
    · have hmb : m = b := eq_of_id_eq hids hm0 hbl hid
      rw [hmb] at hm
      exact ((List.Nodup.mem_erase_iff (hlnd.erase a)).mp hm).1 rfl
  refine ((hl2.map _).trans ?_).trans (hl2.map _).symm
  simp only [List.map_cons]
  have h1 : (if a.id == b.id then a.zIndex
      else if a.id == a.id then b.zIndex else a.zIndex) = b.zIndex := by
    simp [hne]
  have h2 : (if b.id == b.id then a.zIndex
      else if b.id == a.id then b.zIndex else b.zIndex) = a.zIndex := by
    simp
  have h3 : ∀ m ∈ (l.erase a).erase b,
      (if m.id == b.id then a.zIndex
        else if m.id == a.id then b.zIndex else m.zIndex) = m.zIndex := by
    intro m hm
    simp [(hl2mem m hm).1, (hl2mem m hm).2]
  rw [h1, h2, List.map_congr_left h3]
  exact List.Perm.swap _ _ _

/-- Swapping the z values of two distinct same-parent siblings keeps the
parent dense. -/
theorem DenseAt_swap (nodes : List Node) (hnd : NodupIds nodes) (a b : Node)
    (ha : a ∈ nodes) (hb : b ∈ nodes) (hne : a.id ≠ b.id) (pidN : Option Id)
    (hpa : a.parentId = pidN) (hpb : b.parentId = pidN) (hd : DenseAt nodes pidN) :
    DenseAt (updateNode (updateNode nodes a.id (fun m => { m with zIndex := b.zIndex }))
      b.id (fun m => { m with zIndex := a.zIndex })) pidN := by
  unfold DenseAt
  rw [childrenOf_updateNode _ b.id (fun m => { m with zIndex := a.zIndex })
    (fun m => rfl) pidN]
  rw [childrenOf_updateNode nodes a.id (fun m => { m with zIndex := b.zIndex })
    (fun m => rfl) pidN]
  rw [List.map_map, List.map_map, List.length_map, List.length_map]
  have hform : ∀ m ∈ childrenOf nodes pidN,
      (((fun n => n.zIndex) ∘ fun m => if m.id == b.id
          then { m with zIndex := a.zIndex } else m) ∘
        fun m => if m.id == a.id then { m with zIndex := b.zIndex } else m) m
      = (if m.id == b.id then a.zIndex
          else if m.id == a.id then b.zIndex else m.zIndex) := by
    intro m _
    by_cases hA : (m.id == a.id) = true
    · by_cases hB : (m.id == b.id) = true
      · exact absurd ((beq_iff_eq.mp hA).symm.trans (beq_iff_eq.mp hB)) hne
      · simp [Function.comp, hA, hB]
    · by_cases hB : (m.id == b.id) = true
      · simp [Function.comp, hA, hB]
      · simp [Function.comp, hA, hB]
  rw [List.map_congr_left hform]
  have hids := childrenOf_ids_nodup nodes pidN hnd
  exact (map_swap_perm (childrenOf nodes pidN) hids a b
    (mem_childrenOf.mpr ⟨ha, hpa⟩) (mem_childrenOf.mpr ⟨hb, hpb⟩) hne).trans hd

end UIApp

namespace UIApp

/-- C10 (amended): starting from unique ids and dense z sequences, move-up /
move-down is either the identity or exactly the z-value exchange of two
distinct same-parent siblings (so all other fields and all other nodes are
untouched); when the selected node is first (move-up) or last (move-down) in
draw order the store is unchanged. -/
theorem C10_swap_changes_only_two_siblings (s : State)
    (hnd : NodupIds s.nodes) (hdz : DenseZ s.nodes) :
    (moveUpSelected s = s ∨ ∃ a b, a ∈ s.nodes ∧ b ∈ s.nodes ∧ a.id ≠ b.id
        ∧ a.parentId = b.parentId
        ∧ moveUpSelected s = { s with nodes := swapZ s.nodes a b })
    ∧ (moveDownSelected s = s ∨ ∃ a b, a ∈ s.nodes ∧ b ∈ s.nodes ∧ a.id ≠ b.id
        ∧ a.parentId = b.parentId
        ∧ moveDownSelected s = { s with nodes := swapZ s.nodes a b })
    ∧ (∀ selId, s.selectedId = some selId →
        (siblingsOf s.nodes selId).findIdx? (fun n => n.id == selId) = some 0 →
        moveUpSelected s = s)
    ∧ (∀ selId idx, s.selectedId = some selId →
        (siblingsOf s.nodes selId).findIdx? (fun n => n.id == selId) = some idx →
        (siblingsOf s.nodes selId).length ≤ idx + 1 →
        moveDownSelected s = s) := by
  refine ⟨?_, ?_, ?_, ?_⟩
  · unfold moveUpSelected siblingsOf
    cases hsel : s.selectedId with
    | none => exact Or.inl rfl
    | some selId =>
      dsimp only
      cases hg : getNode s.nodes selId with
      | none => exact Or.inl rfl
      | some n =>
        cases hfi : (sortByZ (childrenOf s.nodes n.parentId)).findIdx?
            (fun m => m.id == selId) with
        | none => exact Or.inl rfl
        | some idx =>
          dsimp only
          by_cases hz : idx = 0
          · rw [if_pos hz]
            exact Or.inl rfl
          · rw [if_neg hz]
            cases hga : (sortByZ (childrenOf s.nodes n.parentId))[idx - 1]? with
            | none => exact Or.inl rfl
            | some a =>
              cases hgb : (sortByZ (childrenOf s.nodes n.parentId))[idx]? with
              | none => exact Or.inl rfl
              | some b =>
                dsimp only
                right
                obtain ⟨hlt1, heq1⟩ := List.getElem?_eq_some_iff.mp hga
                obtain ⟨hlt2, heq2⟩ := List.getElem?_eq_some_iff.mp hgb
                have ham := mem_childrenOf.mp
                  ((sortByZ_perm _).subset (List.getElem?_mem hga))
                have hbm := mem_childrenOf.mp
                  ((sortByZ_perm _).subset (List.getElem?_mem hgb))
                have hndsibs : ((sortByZ (childrenOf s.nodes n.parentId)).map
                    (fun o => o.id)).Nodup :=
                  ((sortByZ_perm _).map _).nodup_iff.mpr
                    (childrenOf_ids_nodup s.nodes n.parentId hnd)
                have hneid : a.id ≠ b.id := by
                  intro hid
                  have hm1 : idx - 1 < ((sortByZ (childrenOf s.nodes n.parentId)).map
                      (fun o => o.id)).length := by simpa using hlt1
                  have hm2 : idx < ((sortByZ (childrenOf s.nodes n.parentId)).map
                      (fun o => o.id)).length := by simpa using hlt2
                  have hgeq : ((sortByZ (childrenOf s.nodes n.parentId)).map
                      (fun o => o.id))[idx - 1]
                      = ((sortByZ (childrenOf s.nodes n.parentId)).map
                      (fun o => o.id))[idx] := by
                    rw [List.getElem_map, List.getElem_map, heq1, heq2]
                    exact hid
                  have := (List.Nodup.getElem_inj_iff hndsibs).mp hgeq
                  omega
                have hnd1 : NodupIds (updateNode s.nodes a.id
                    (fun m => { m with zIndex := b.zIndex })) :=
                  updateNode_nodup _ _ _ (fun m => rfl) hnd
                have hnd2 : NodupIds (updateNode (updateNode s.nodes a.id
                    (fun m => { m with zIndex := b.zIndex })) b.id
                    (fun m => { m with zIndex := a.zIndex })) :=
                  updateNode_nodup _ _ _ (fun m => rfl) hnd1
                have hswap := DenseAt_swap s.nodes hnd a b ham.1 hbm.1 hneid b.parentId
                  (ham.2.trans hbm.2.symm) rfl (hdz b.parentId)
                refine ⟨a, b, ham.1, hbm.1, hneid, ham.2.trans hbm.2.symm, ?_⟩
                unfold swapZ
                rw [normalize_eq_self_of_denseAt _ b.parentId hnd2 hswap]
  · unfold moveDownSelected siblingsOf
    cases hsel : s.selectedId with
    | none => exact Or.inl rfl
    | some selId =>
      dsimp only
      cases hg : getNode s.nodes selId with
      | none => exact Or.inl rfl
      | some n =>
        cases hfi : (sortByZ (childrenOf s.nodes n.parentId)).findIdx?
            (fun m => m.id == selId) with
        | none => exact Or.inl rfl
        | some idx =>
          dsimp only
          by_cases hz : idx + 1 ≥ (sortByZ (childrenOf s.nodes n.parentId)).length
          · rw [if_pos hz]
            exact Or.inl rfl
          · rw [if_neg hz]
            cases hga : (sortByZ (childrenOf s.nodes n.parentId))[idx]? with
            | none => exact Or.inl rfl
            | some a =>
              cases hgb : (sortByZ (childrenOf s.nodes n.parentId))[idx + 1]? with
              | none => exact Or.inl rfl
              | some b =>
                dsimp only
                right
                obtain ⟨hlt1, heq1⟩ := List.getElem?_eq_some_iff.mp hga
                obtain ⟨hlt2, heq2⟩ := List.getElem?_eq_some_iff.mp hgb
                have ham := mem_childrenOf.mp
                  ((sortByZ_perm _).subset (List.getElem?_mem hga))
                have hbm := mem_childrenOf.mp
                  ((sortByZ_perm _).subset (List.getElem?_mem hgb))
                have hndsibs : ((sortByZ (childrenOf s.nodes n.parentId)).map
                    (fun o => o.id)).Nodup :=
                  ((sortByZ_perm _).map _).nodup_iff.mpr
                    (childrenOf_ids_nodup s.nodes n.parentId hnd)
                have hneid : a.id ≠ b.id := by
                  intro hid
                  have hm1 : idx < ((sortByZ (childrenOf s.nodes n.parentId)).map
                      (fun o => o.id)).length := by simpa using hlt1
                  have hm2 : idx + 1 < ((sortByZ (childrenOf s.nodes n.parentId)).map
                      (fun o => o.id)).length := by simpa using hlt2
                  have hgeq : ((sortByZ (childrenOf s.nodes n.parentId)).map
                      (fun o => o.id))[idx]
                      = ((sortByZ (childrenOf s.nodes n.parentId)).map
                      (fun o => o.id))[idx + 1] := by
                    rw [List.getElem_map, List.getElem_map, heq1, heq2]
                    exact hid
                  have := (List.Nodup.getElem_inj_iff hndsibs).mp hgeq
                  omega
                have hnd1 : NodupIds (updateNode s.nodes a.id
                    (fun m => { m with zIndex := b.zIndex })) :=
                  updateNode_nodup _ _ _ (fun m => rfl) hnd
                have hnd2 : NodupIds (updateNode (updateNode s.nodes a.id
                    (fun m => { m with zIndex := b.zIndex })) b.id
                    (fun m => { m with zIndex := a.zIndex })) :=
                  updateNode_nodup _ _ _ (fun m => rfl) hnd1
                have hswap := DenseAt_swap s.nodes hnd a b ham.1 hbm.1 hneid a.parentId
                  rfl (hbm.2.trans ham.2.symm) (hdz a.parentId)
                refine ⟨a, b, ham.1, hbm.1, hneid, ham.2.trans hbm.2.symm, ?_⟩
                unfold swapZ
                rw [normalize_eq_self_of_denseAt _ a.parentId hnd2 hswap]
  · intro selId hsel hfi
    unfold moveUpSelected
    rw [hsel]
    dsimp only
    rw [hfi]
    dsimp only
    rw [if_pos rfl]
  · intro selId idx hsel hfi hlen
    unfold moveDownSelected
    rw [hsel]
    dsimp only
    rw [hfi]
    dsimp only
    rw [if_pos hlen]

end UIApp

namespace UIApp

/-- C10 counterexample: in the sparse store (z values 1, 2, 7; node 2
selected), move-up swaps siblings 2 and 1, yet the renormalization also
rewrites the uninvolved node 3's z value from 7 to 3. -/
theorem C10_counterexample :
    sSparse.selectedId = some 2
      ∧ (siblingsOf sSparse.nodes 2).findIdx? (fun n => n.id == 2) = some 1
      ∧ (siblingsOf sSparse.nodes 2)[0]?.map (fun n => n.id) = some 1
      ∧ (getNode sSparse.nodes 3).map (fun n => n.zIndex) = some (Q.ofInt 7)
      ∧ (getNode (moveUpSelected sSparse).nodes 3).map (fun n => n.zIndex)
          = some (Q.ofInt 3) := by
  decide

/-- Witness for C10 on the dense three-sibling store. -/
theorem C10_swap_changes_only_two_siblings_witness :
    NodupIds sThree.nodes ∧ DenseZ sThree.nodes
      ∧ (moveUpSelected sThree = sThree ∨ ∃ a b, a ∈ sThree.nodes ∧ b ∈ sThree.nodes
          ∧ a.id ≠ b.id ∧ a.parentId = b.parentId
          ∧ moveUpSelected sThree = { sThree with nodes := swapZ sThree.nodes a b }) :=
  ⟨by decide, DenseZ_of_DenseZB sThree.nodes (by decide),
   (C10_swap_changes_only_two_siblings sThree (by decide)
     (DenseZ_of_DenseZB sThree.nodes (by decide))).1⟩

end UIApp

namespace UIApp

/-- Position of a satisfier after removing an earlier/later index: the found
index shifts down by one exactly when the removed index lies before it. -/
theorem findIdx?_eraseIdx (L : List Node) (p : Node → Bool) (dIdx tIdx : Nat)
    (hd : dIdx < L.length)
    (hft : L.findIdx? p = some tIdx)
    (hne : dIdx ≠ tIdx) :
    (L.eraseIdx dIdx).findIdx? p = some (if dIdx < tIdx then tIdx - 1 else tIdx) := by
  obtain ⟨htlt, htp, htmin⟩ := List.findIdx?_eq_some_iff_getElem.mp hft
  rw [List.findIdx?_eq_some_iff_getElem]
  have hlen : (L.eraseIdx dIdx).length = L.length - 1 := by
    rw [List.length_eraseIdx, if_pos hd]
  by_cases hlt : dIdx < tIdx
  · rw [if_pos hlt]
    have hk : tIdx - 1 < (L.eraseIdx dIdx).length := by omega
    refine ⟨hk, ?_, ?_⟩
    · rw [List.getElem_eraseIdx, dif_neg (by omega)]
      have hco : tIdx - 1 + 1 = tIdx := by omega
      simp only [hco]
      exact htp
    · intro j hj
      rw [List.getElem_eraseIdx]
      by_cases hji : j < dIdx
      · rw [dif_pos hji]
        exact htmin j (by omega)
      · rw [dif_neg hji]
        exact htmin (j + 1) (by omega)
  · rw [if_neg hlt]
    have htd : tIdx < dIdx := by omega
    have hk : tIdx < (L.eraseIdx dIdx).length := by omega
    refine ⟨hk, ?_, ?_⟩
    · rw [List.getElem_eraseIdx, dif_pos htd]
      exact htp
    · intro j hj
      rw [List.getElem_eraseIdx, dif_pos (by omega)]
      exact htmin j hj

end UIApp

namespace UIApp

theorem reorder_idx_below_lt (R tIdx dIdx : Nat) (h : dIdx < tIdx) :
    (max 0 (min (R : Int) ((tIdx : Int) + 0))).toNat = min (tIdx - 1 + 1) R := by
  omega

theorem reorder_idx_below_ge (R tIdx : Nat) :
    (max 0 (min (R : Int) ((tIdx : Int) + 1))).toNat = min (tIdx + 1) R := by
  omega

theorem reorder_idx_above_lt (R tIdx dIdx : Nat) (h : dIdx < tIdx) :
    (max 0 (min (R : Int) ((tIdx : Int) + -1))).toNat = min (tIdx - 1) R := by
  omega

theorem reorder_idx_above_ge (R tIdx : Nat) :
    (max 0 (min (R : Int) ((tIdx : Int) + 0))).toNat = min tIdx R := by
  omega

/-- C4: the drag-reorder over z-sorted siblings refines the specification's
remove/reinsert/reindex description (same-parent case), and the concrete
X(z=1),Y(z=2),Z(z=3) scenario with `reorder(X, Z, below)` ends with
Y=1, Z=2, X=3. -/
theorem C4_reorder_refines_spec (s : State) (dragId targetId : Id) (pos : RPos)
    (drag target : Node)
    (hgd : getNode s.nodes dragId = some drag)
    (hgt : getNode s.nodes targetId = some target)
    (hsame : drag.parentId = target.parentId)
    (hne : dragId ≠ targetId) :
    reorderRelative s dragId targetId pos = reorderRelativeSpec s dragId targetId pos
    ∧ (getNode (reorderRelative sThree 1 3 RPos.below).nodes 2).map (fun n => n.zIndex)
        = some (Q.ofInt 1)
    ∧ (getNode (reorderRelative sThree 1 3 RPos.below).nodes 3).map (fun n => n.zIndex)
        = some (Q.ofInt 2)
    ∧ (getNode (reorderRelative sThree 1 3 RPos.below).nodes 1).map (fun n => n.zIndex)
        = some (Q.ofInt 3) := by
  refine ⟨?_, by decide, by decide, by decide⟩
  unfold reorderRelative reorderRelativeSpec
  rw [hgd, hgt]
  dsimp only
  rw [if_neg (fun hcon => hcon hsame)]
  cases hfd : (sortByZ (childrenOf s.nodes target.parentId)).findIdx?
      (fun n => n.id == dragId) with
  | none => rfl
  | some dIdx =>
    obtain ⟨hdlt, hdp, _⟩ := List.findIdx?_eq_some_iff_getElem.mp hfd
    have hgetd : (sortByZ (childrenOf s.nodes target.parentId))[dIdx]?
        = some ((sortByZ (childrenOf s.nodes target.parentId))[dIdx]) :=
      List.getElem?_eq_getElem hdlt
    cases hft : (sortByZ (childrenOf s.nodes target.parentId)).findIdx?
        (fun n => n.id == targetId) with
    | none =>
      have hrest : ((sortByZ (childrenOf s.nodes target.parentId)).eraseIdx dIdx).findIdx?
          (fun n => n.id == targetId) = none := by
        rw [List.findIdx?_eq_none_iff] at hft ⊢
        intro x hx
        exact hft x (List.mem_of_mem_eraseIdx hx)
      dsimp only
      rw [hgetd]
      dsimp only
      rw [hrest]
    | some tIdx =>
      obtain ⟨htlt, htp, _⟩ := List.findIdx?_eq_some_iff_getElem.mp hft
      have hidne : dIdx ≠ tIdx := by
        intro hE
        apply hne
        have h1 := beq_iff_eq.mp hdp
        have h2 := beq_iff_eq.mp htp
        subst hE
        exact h1.symm.trans h2
      have hrest := findIdx?_eraseIdx (sortByZ (childrenOf s.nodes target.parentId))
        (fun n => n.id == targetId) dIdx tIdx hdlt hft hidne
      dsimp only
      rw [hgetd]
      dsimp only
      rw [hrest]
      dsimp only
      cases pos with
      | below =>
        dsimp only
        by_cases hlt : dIdx < tIdx
        · rw [if_pos hlt, reorder_idx_below_lt _ _ _ hlt, if_pos hlt]
        · rw [if_neg hlt, reorder_idx_below_ge, if_neg hlt]
      | above =>
        dsimp only
        by_cases hlt : dIdx < tIdx
        · rw [if_pos hlt, reorder_idx_above_lt _ _ _ hlt, if_pos hlt]
        · rw [if_neg hlt, reorder_idx_above_ge, if_neg hlt]

end UIApp

namespace UIApp

/-- Witness for C4 at the three-sibling store, dragging X below Z. -/
theorem C4_reorder_refines_spec_witness :
    getNode sThree.nodes 1 = some (mkFrame 1 none 1)
      ∧ getNode sThree.nodes 3 = some (mkFrame 3 none 3)
      ∧ (mkFrame 1 none 1).parentId = (mkFrame 3 none 3).parentId
      ∧ (1 : Id) ≠ 3
      ∧ reorderRelative sThree 1 3 RPos.below = reorderRelativeSpec sThree 1 3 RPos.below :=
  ⟨rfl, rfl, rfl, by decide,
   (C4_reorder_refines_spec sThree 1 3 RPos.below (mkFrame 1 none 1) (mkFrame 3 none 3)
     rfl rfl rfl (by decide)).1⟩

end UIApp

namespace UIApp

theorem getNode_map_of_id (nodes : List Node) (f : Node → Node)
    (hf : ∀ m, (f m).id = m.id) (i : Id) :
    getNode (nodes.map f) i = (getNode nodes i).map f := by
  unfold getNode
  induction nodes with
  | nil => rfl
  | cons m ms ih =>
    rw [List.map_cons]
    have hpe : ((f m).id == i) = (m.id == i) := by rw [hf]
    cases hp : (m.id == i) with
    | true => simp [List.find?_cons, hpe, hp]
    | false => simpa [List.find?_cons, hpe, hp] using ih

theorem absTLF_map_geo (nodes : List Node) (f : Node → Node) (hf : GeoPreserving f) :
    ∀ (fuel : Nat) (p : Id), absTLF (nodes.map f) fuel p = absTLF nodes fuel p := by
  intro fuel
  induction fuel with
  | zero => intro p; rfl
  | succ k ih =>
    intro p
    unfold absTLF
    rw [getNode_map_of_id nodes f (fun m => (hf m).1) p]
    cases hg : getNode nodes p with
    | none => rfl
    | some n =>
      obtain ⟨h1, h2, h3, h4, h5, h6, h7, h8⟩ := hf n
      dsimp only [Option.map]
      rw [h2]
      cases hpp : n.parentId with
      | none =>
        dsimp only
        rw [h3, h4, h5, h6, h7, h8]
      | some q =>
        dsimp only
        rw [h3, h4, h5, h6, h7, h8, ih q]

theorem assignFun_geo (order : List Node) : GeoPreserving (assignFun order) := by
  intro m
  unfold assignFun
  cases order.findIdx? (fun o => o.id == m.id) <;>
    exact ⟨rfl, rfl, rfl, rfl, rfl, rfl, rfl, rfl⟩

/-- Renormalizing z indices never moves any world rectangle. -/
theorem absTLF_normalize (nodes : List Node) (pid : Option Id) (hnd : NodupIds nodes)
    (fuel : Nat) (p : Id) :
    absTLF (normalizeZIndices nodes pid) fuel p = absTLF nodes fuel p := by
  have hndS : ((sortByZ (childrenOf nodes pid)).map (fun o => o.id)).Nodup :=
    ((sortByZ_perm _).map _).nodup_iff.mpr (childrenOf_ids_nodup nodes pid hnd)
  unfold normalizeZIndices
  rw [assignSeq_eq_map _ _ hndS]
  exact absTLF_map_geo nodes _ (assignFun_geo _) fuel p

theorem updateNode_length (nodes : List Node) (i : Id) (f : Node → Node) :
    (updateNode nodes i f).length = nodes.length := by
  unfold updateNode
  exact List.length_map _ _

theorem normalize_length (nodes : List Node) (pid : Option Id) (hnd : NodupIds nodes) :
    (normalizeZIndices nodes pid).length = nodes.length := by
  have hndS : ((sortByZ (childrenOf nodes pid)).map (fun o => o.id)).Nodup :=
    ((sortByZ_perm _).map _).nodup_iff.mpr (childrenOf_ids_nodup nodes pid hnd)
  unfold normalizeZIndices
  rw [assignSeq_eq_map _ _ hndS]
  exact List.length_map _ _

theorem idParent_normalize (nodes : List Node) (pid : Option Id) (hnd : NodupIds nodes)
    (i : Id) (p : Option Id) (h : IdParent nodes i p) :
    IdParent (normalizeZIndices nodes pid) i p := by
  have hndS : ((sortByZ (childrenOf nodes pid)).map (fun o => o.id)).Nodup :=
    ((sortByZ_perm _).map _).nodup_iff.mpr (childrenOf_ids_nodup nodes pid hnd)
  unfold normalizeZIndices
  rw [assignSeq_eq_map _ _ hndS]
  intro m hm hid
  rcases List.mem_map.mp hm with ⟨m0, hm0, rfl⟩
  rw [assignFun_parentId]
  exact h m0 hm0 (by rw [← assignFun_id (sortByZ (childrenOf nodes pid)) m0]; exact hid)

end UIApp

namespace UIApp

/-- Editing a node that is not on a parent chain changes neither the chain
nor the accumulated top-left along it. -/
theorem absTLF_congr_offchain (nodes nodes' : List Node) (nId : Id)
    (hagree : ∀ i, i ≠ nId → getNode nodes' i = getNode nodes i) :
    ∀ (fuel : Nat) (p : Id) (l : List Id),
      chainF nodes fuel p = some l → nId ∉ l →
      absTLF nodes' fuel p = absTLF nodes fuel p ∧ chainF nodes' fuel p = some l := by
  intro fuel
  induction fuel with
  | zero =>
    intro p l hc _
    exact Option.noConfusion hc
  | succ k ih =>
    intro p l hc hnm
    unfold chainF at hc
    cases hg : getNode nodes p with
    | none =>
      rw [hg] at hc
      dsimp only at hc
      have hl : [p] = l := Option.some.inj hc
      have hpn : p ≠ nId := by
        intro hE
        apply hnm
        rw [← hl, hE]
        exact List.mem_singleton_self _
      constructor
      · unfold absTLF
        rw [hagree p hpn, hg]
      · unfold chainF
        rw [hagree p hpn, hg]
        dsimp only
        rw [hl]
    | some n =>
      rw [hg] at hc
      dsimp only at hc
      cases hpp : n.parentId with
      | none =>
        rw [hpp] at hc
        dsimp only at hc
        have hl : [p] = l := Option.some.inj hc
        have hpn : p ≠ nId := by
          intro hE
          apply hnm
          rw [← hl, hE]
          exact List.mem_singleton_self _
        constructor
        · unfold absTLF
          rw [hagree p hpn, hg]
          dsimp only
          rw [hpp]
        · unfold chainF
          rw [hagree p hpn, hg]
          dsimp only
          rw [hpp]
          dsimp only
          rw [hl]
      | some q =>
        rw [hpp] at hc
        dsimp only at hc
        cases hcq : chainF nodes k q with
        | none =>
          rw [hcq] at hc
          exact Option.noConfusion hc
        | some lq =>
          rw [hcq] at hc
          dsimp only [Option.map] at hc
          have hl : p :: lq = l := Option.some.inj hc
          have hpn : p ≠ nId := by
            intro hE
            apply hnm
            rw [← hl, hE]
            exact List.mem_cons_self _ _
          have hnq : nId ∉ lq := by
            intro hE
            apply hnm
            rw [← hl]
            exact List.mem_cons_of_mem _ hE
          obtain ⟨ih1, ih2⟩ := ih q lq hcq hnq
          constructor
          · unfold absTLF
            rw [hagree p hpn, hg]
            dsimp only
            rw [hpp]
            dsimp only
            rw [ih1]
          · unfold chainF
            rw [hagree p hpn, hg]
            dsimp only
            rw [hpp]
            dsimp only
            rw [ih2]
            dsimp only [Option.map]
            rw [hl]

/-- Rounding a coordinate relative to a parent origin moves the world anchor
by at most half a pixel. -/
theorem round_drift (t v : Q) :
    Q.abs ((t + Q.ofInt (Q.round (v - t))) - v) ≤ Q.half := by
  rw [Q.le_iff]
  simp only [Q.toRat_abs, Q.toRat_add, Q.toRat_sub, Q.toRat_ofInt, Q.toRat_half]
  rw [Q.round_eq]
  simp only [Q.toRat_sub]
  set u := v.toRat - t.toRat with hu
  have h1 : ((⌊u + 1/2⌋ : Int) : ℚ) ≤ u + 1/2 := Int.floor_le _
  have h2 : u + 1/2 < ((⌊u + 1/2⌋ : Int) : ℚ) + 1 := Int.lt_floor_add_one _
  refine abs_le.mpr ⟨?_, ?_⟩
  · linarith
  · linarith

theorem abs_sub_le_one_of_halves (a b c : Q)
    (h1 : Q.abs (b - a) ≤ Q.half) (h2 : Q.abs (c - b) ≤ Q.half) :
    Q.abs (c - a) ≤ (1 : Q) := by
  rw [Q.le_iff] at h1 h2 ⊢
  simp only [Q.toRat_abs, Q.toRat_sub, Q.toRat_half, Q.toRat_q1] at h1 h2 ⊢
  have ha1 := abs_le.mp h1
  have ha2 := abs_le.mp h2
  refine abs_le.mpr ⟨?_, ?_⟩
  · linarith [ha1.1, ha2.1]
  · linarith [ha1.2, ha2.2]

end UIApp

namespace UIApp

/-- Anchor drift along the reparent pipeline: if the surviving node's stored
position is the rounded parent-relative offset of a target world anchor `wA`
(i.e. the clamp did not saturate), the resulting world anchor is within half
a pixel of `wA` on each axis. -/
theorem pipeline_anchor_drift (nodes : List Node) (i : Id) (p oldP : Option Id)
    (f2 f3 : Node → Node)
    (hf2 : ∀ m, (f2 m).id = m.id ∧ (f2 m).parentId = m.parentId)
    (hf3 : ∀ m, (f3 m).id = m.id ∧ (f3 m).parentId = m.parentId)
    (hnd : NodupIds nodes)
    (hchain : chainOKB nodes i p = true)
    (n' : Node)
    (hg' : getNode (normalizeZIndices (normalizeZIndices
        (updateNode (updateNode (updateNode nodes i (fun m => { m with parentId := p })) i f2)
          i f3) p) oldP) i = some n')
    (wA : Q × Q)
    (hx : n'.x = Q.ofInt (Q.round (wA.1
        - (match p with | none => ((0 : Q), (0 : Q)) | some a => absTLF nodes nodes.length a).1)))
    (hy : n'.y = Q.ofInt (Q.round (wA.2
        - (match p with | none => ((0 : Q), (0 : Q)) | some a => absTLF nodes nodes.length a).2))) :
    Q.abs ((absAnchor (normalizeZIndices (normalizeZIndices
        (updateNode (updateNode (updateNode nodes i (fun m => { m with parentId := p })) i f2)
          i f3) p) oldP) i).1 - wA.1) ≤ Q.half
    ∧ Q.abs ((absAnchor (normalizeZIndices (normalizeZIndices
        (updateNode (updateNode (updateNode nodes i (fun m => { m with parentId := p })) i f2)
          i f3) p) oldP) i).2 - wA.2) ≤ Q.half := by
  have hnd1 : NodupIds (updateNode nodes i (fun m => { m with parentId := p })) :=
    updateNode_nodup _ _ _ (fun m => rfl) hnd
  have hnd2 : NodupIds (updateNode (updateNode nodes i (fun m => { m with parentId := p }))
      i f2) := updateNode_nodup _ _ _ (fun m => (hf2 m).1) hnd1
  have hnd3 : NodupIds (updateNode (updateNode (updateNode nodes i
      (fun m => { m with parentId := p })) i f2) i f3) :=
    updateNode_nodup _ _ _ (fun m => (hf3 m).1) hnd2
  have hnd4 : NodupIds (normalizeZIndices (updateNode (updateNode (updateNode nodes i
      (fun m => { m with parentId := p })) i f2) i f3) p) :=
    normalize_nodup _ _ hnd3
  have hlen : (normalizeZIndices (normalizeZIndices (updateNode (updateNode (updateNode nodes i
      (fun m => { m with parentId := p })) i f2) i f3) p) oldP).length = nodes.length := by
    rw [normalize_length _ _ hnd4, normalize_length _ _ hnd3, updateNode_length,
      updateNode_length, updateNode_length]
  have hip : IdParent (normalizeZIndices (normalizeZIndices (updateNode (updateNode
      (updateNode nodes i (fun m => { m with parentId := p })) i f2) i f3) p) oldP) i p :=
    idParent_normalize _ _ hnd4 _ _ (idParent_normalize _ _ hnd3 _ _
      (idParent_keep _ _ _ _ _ (fun m => ⟨(hf3 m).2, (hf3 m).1⟩)
        (idParent_keep _ _ _ _ _ (fun m => ⟨(hf2 m).2, (hf2 m).1⟩) (idParent_set nodes i p))))
  have hparent : n'.parentId = p := hip n' (getNode_some_mem hg') (getNode_some_id hg')
  cases p with
  | none =>
    dsimp only at hx hy
    constructor
    · unfold absAnchor absAnchorF
      rw [hg']
      dsimp only
      rw [hparent]
      dsimp only
      rw [hx]
      exact round_drift 0 wA.1
    · unfold absAnchor absAnchorF
      rw [hg']
      dsimp only
      rw [hparent]
      dsimp only
      rw [hy]
      exact round_drift 0 wA.2
  | some a =>
    dsimp only at hx hy
    unfold chainOKB at hchain
    dsimp only at hchain
    cases hc : chainF nodes nodes.length a with
    | none =>
      rw [hc] at hchain
      exact Bool.noConfusion hchain
    | some l =>
      rw [hc] at hchain
      dsimp only at hchain
      have hnl : i ∉ l := by
        intro hmem
        have hcont : l.contains i = true := by simpa using hmem
        rw [hcont] at hchain
        exact Bool.noConfusion hchain
      have hagree : ∀ j, j ≠ i → getNode (updateNode (updateNode (updateNode nodes i
          (fun m => { m with parentId := some a })) i f2) i f3) j = getNode nodes j := by
        intro j hj
        rw [getNode_updateNode_other (fun m => (hf3 m).1) hj,
          getNode_updateNode_other (fun m => (hf2 m).1) hj,
          @getNode_updateNode_other nodes i j (fun m => { m with parentId := some a })
            (fun m => rfl) hj]
      have htl : absTLF (normalizeZIndices (normalizeZIndices (updateNode (updateNode
          (updateNode nodes i (fun m => { m with parentId := some a })) i f2) i f3)
          (some a)) oldP) nodes.length a = absTLF nodes nodes.length a := by
        rw [absTLF_normalize _ oldP hnd4, absTLF_normalize _ (some a) hnd3]
        exact (absTLF_congr_offchain nodes _ i hagree nodes.length a l hc hnl).1
      constructor
      · unfold absAnchor absAnchorF
        rw [hg']
        dsimp only
        rw [hparent]
        dsimp only
        rw [hlen, htl, hx]
        exact round_drift _ _
      · unfold absAnchor absAnchorF
        rw [hg']
        dsimp only
        rw [hparent]
        dsimp only
        rw [hlen, htl, hy]
        exact round_drift _ _

end UIApp

namespace UIApp

/-- One valid reparent moves the world anchor by at most half a pixel,
provided the clamp did not saturate (hypotheses `hx`, `hy`: the stored
position is exactly the rounded parent-relative offset). -/
theorem reparent_anchor_drift (s : State) (nId : Id) (n : Node) (p' : Option Id)
    (hnd : NodupIds s.nodes)
    (hg : getNode s.nodes nId = some n)
    (hne : n.parentId ≠ p')
    (hchain : chainOKB s.nodes nId p' = true)
    (n' : Node)
    (hg' : getNode (reparentNode s nId p').nodes nId = some n')
    (hx : n'.x = Q.ofInt (Q.round ((absAnchor s.nodes nId).1
        - (match p' with | none => ((0 : Q), (0 : Q)) | some a => absTopLeft s.nodes a).1)))
    (hy : n'.y = Q.ofInt (Q.round ((absAnchor s.nodes nId).2
        - (match p' with | none => ((0 : Q), (0 : Q)) | some a => absTopLeft s.nodes a).2))) :
    Q.abs ((absAnchor (reparentNode s nId p').nodes nId).1 - (absAnchor s.nodes nId).1) ≤ Q.half
    ∧ Q.abs ((absAnchor (reparentNode s nId p').nodes nId).2 - (absAnchor s.nodes nId).2)
        ≤ Q.half := by
  unfold reparentNode at hg' ⊢
  rw [hg] at hg' ⊢
  dsimp only at hg' ⊢
  rw [if_neg hne] at hg' ⊢
  refine pipeline_anchor_drift s.nodes nId p' n.parentId _ _ ?_ ?_ hnd hchain n' hg'
    (absAnchor s.nodes nId) hx hy
  · exact fun m => ⟨rfl, rfl⟩
  · exact fun m => ⟨clampInParent_id _ _, clampInParent_parentId _ _⟩

/-- C3 (amended): a valid reparent to `pA` and back to the original parent
restores the world anchor to within one pixel per axis, provided neither
clamp saturates (each stored position equals the rounded relative offset).
Without the no-saturation proviso the claim fails: clamping into a small
parent destroys the world position. -/
theorem C3_reparent_roundtrip_within_one (s : State) (nId : Id) (n : Node) (pA : Option Id)
    (hnd : NodupIds s.nodes)
    (hg : getNode s.nodes nId = some n)
    (hneA : n.parentId ≠ pA)
    (hchainA : chainOKB s.nodes nId pA = true)
    (n1 : Node)
    (hg1 : getNode (reparentNode s nId pA).nodes nId = some n1)
    (hx1 : n1.x = Q.ofInt (Q.round ((absAnchor s.nodes nId).1
        - (match pA with | none => ((0 : Q), (0 : Q)) | some a => absTopLeft s.nodes a).1)))
    (hy1 : n1.y = Q.ofInt (Q.round ((absAnchor s.nodes nId).2
        - (match pA with | none => ((0 : Q), (0 : Q)) | some a => absTopLeft s.nodes a).2)))
    (hchainB : chainOKB (reparentNode s nId pA).nodes nId n.parentId = true)
    (hp1 : n1.parentId = pA)
    (n2 : Node)
    (hg2 : getNode (reparentNode (reparentNode s nId pA) nId n.parentId).nodes nId = some n2)
    (hx2 : n2.x = Q.ofInt (Q.round ((absAnchor (reparentNode s nId pA).nodes nId).1
        - (match n.parentId with | none => ((0 : Q), (0 : Q)) | some a => absTopLeft (reparentNode s nId pA).nodes a).1)))
    (hy2 : n2.y = Q.ofInt (Q.round ((absAnchor (reparentNode s nId pA).nodes nId).2
        - (match n.parentId with | none => ((0 : Q), (0 : Q)) | some a => absTopLeft (reparentNode s nId pA).nodes a).2))) :
    Q.abs ((absAnchor (reparentNode (reparentNode s nId pA) nId n.parentId).nodes nId).1
        - (absAnchor s.nodes nId).1) ≤ (1 : Q)
    ∧ Q.abs ((absAnchor (reparentNode (reparentNode s nId pA) nId n.parentId).nodes nId).2
        - (absAnchor s.nodes nId).2) ≤ (1 : Q) := by
  have hd1 := reparent_anchor_drift s nId n pA hnd hg hneA hchainA n1 hg1 hx1 hy1
  have hnd1 : NodupIds (reparentNode s nId pA).nodes := reparentNode_nodup s nId pA hnd
  have hne2 : n1.parentId ≠ n.parentId := by
    rw [hp1]
    exact fun h => hneA h.symm
  have hd2 := reparent_anchor_drift (reparentNode s nId pA) nId n1 n.parentId hnd1 hg1 hne2
    hchainB n2 hg2 hx2 hy2
  exact ⟨abs_sub_le_one_of_halves _ _ _ hd1.1 hd2.1,
    abs_sub_le_one_of_halves _ _ _ hd1.2 hd2.2⟩

end UIApp

namespace UIApp

set_option maxRecDepth 100000 in
/-- C3 counterexample: reparenting the far-right node into the small frame
clamps it into the frame's box, so reparenting back to `ROOT` leaves its
world anchor displaced far beyond any rounding tolerance, although the
target was valid (not the node, not a descendant). -/
theorem C3_counterexample :
    chainOKB sFar.nodes 2 (some 1) = true
    ∧ (getNode sFar.nodes 2).map (fun m => m.parentId) = some none
    ∧ ¬ (Q.abs ((absAnchor (reparentNode (reparentNode sFar 2 (some 1)) 2 none).nodes 2).1
        - (absAnchor sFar.nodes 2).1) ≤ (1 : Q)) := by
  decide

set_option maxRecDepth 100000 in
/-- Witness for C3 on the parent/child store: moving the child to `ROOT` and
back restores its world anchor within one pixel. -/
theorem C3_reparent_roundtrip_within_one_witness :
    Q.abs ((absAnchor (reparentNode (reparentNode sParent 2 none) 2
        ((getNode sParent.nodes 2).getD (mkFrame 0 none 0)).parentId).nodes 2).1
      - (absAnchor sParent.nodes 2).1) ≤ (1 : Q)
    ∧ Q.abs ((absAnchor (reparentNode (reparentNode sParent 2 none) 2
        ((getNode sParent.nodes 2).getD (mkFrame 0 none 0)).parentId).nodes 2).2
      - (absAnchor sParent.nodes 2).2) ≤ (1 : Q) :=
  C3_reparent_roundtrip_within_one sParent 2
    ((getNode sParent.nodes 2).getD (mkFrame 0 none 0)) none
    (by decide) (by decide) (by decide) (by decide)
    ((getNode (reparentNode sParent 2 none).nodes 2).getD (mkFrame 0 none 0))
    (by decide) (by decide) (by decide) (by decide) (by decide)
    ((getNode (reparentNode (reparentNode sParent 2 none) 2
      ((getNode sParent.nodes 2).getD (mkFrame 0 none 0)).parentId).nodes 2).getD
        (mkFrame 0 none 0))
    (by decide) (by decide) (by decide)

end UIApp
